import Mathlib

/-!
# Verification of the NoteScan OMR and audio-rendering engine

Shallow embedding, in Lean 4, of the pitch mapper, tie resolver, repeat
expander, OCR confidence gate, key-signature reader, audio renderer
(timing map, mixing, WAV encoder) and SoundFont (SF2) zone builder and
sample renderer of the NoteScan repository, together with theorems about
the properties the specification states for them.

Conventions used throughout:
* JavaScript numbers are modelled as `ℚ` wherever the code keeps them
  finite by construction; the SoundFont sample renderer, where NaN can
  genuinely arise, uses the `JSNum` type defined below.
* JavaScript `x || y` on numbers (`0`/`undefined`/`NaN` falsy) is
  spelled out with explicit matches.
* `Array.prototype.sort` is required to be stable (ES2019); it is
  modelled by the stable insertion sort `sortByJS`.
-/

unseal Rat.add Rat.sub Rat.mul Rat.inv Rat.ofScientific

/- ───────────────────────── Common helpers ───────────────────────── -/

/-- JavaScript `Math.round`: round half toward positive infinity. -/
def jsRound (q : ℚ) : ℤ := Int.floor (q + 1/2)

/-- Truncation toward zero, the integer conversion used by
`DataView.setInt16` (ECMAScript `ToInt16` after `ToNumber`). -/
def jsTrunc (q : ℚ) : ℤ := if q < 0 then -Int.floor (-q) else Int.floor q

/-- Stable insertion of `a` into `l`: `a` goes after every element `b`
with `le b a`.  Together with `sortByJS` this models the stable
`Array.prototype.sort`. -/
def insertStable (le : α → α → Bool) (a : α) : List α → List α
  | [] => [a]
  | b :: t => if le b a then b :: insertStable le a t else a :: b :: t

/-- Stable sort modelling `Array.prototype.sort(cmp)`, where
`le b a` means `cmp(b, a) ≤ 0`. -/
def sortByJS (le : α → α → Bool) (l : List α) : List α :=
  l.foldl (fun acc a => insertStable le a acc) []

/-- Note duration labels used by the pipeline (`DURSET`, plain and
dotted).  `other` stands for any string that is not a key of the
duration tables (the JS lookup then yields `undefined`). -/
inductive Duration where
  | whole | half | quarter | eighth | sixteenth | thirtysecond
  | dottedWhole | dottedHalf | dottedQuarter | dottedEighth
  | dottedSixteenth | dottedThirtysecond
  | other
deriving DecidableEq, Repr

/-- The duration table shared by `_detectTies` (MusicSheetProcessor.js)
and `createCombinedAudio` (HomeScreen.js): beat value per label, `none`
for a label that is not in the table. -/
def durationMapLookup : Duration → Option ℚ
  | .whole => some 4
  | .half => some 2
  | .quarter => some 1
  | .eighth => some (1/2)
  | .sixteenth => some (1/4)
  | .thirtysecond => some (1/8)
  | .dottedWhole => some 6
  | .dottedHalf => some 3
  | .dottedQuarter => some (3/2)
  | .dottedEighth => some (3/4)
  | .dottedSixteenth => some (3/8)
  | .dottedThirtysecond => some (3/16)
  | .other => none

/-- `durationBeats[d] || 1`: table lookup with the JS falsy default
(`undefined` or `0` fall back to `1`). -/
def durBeatsD (d : Duration) : ℚ :=
  match durationMapLookup d with
  | some b => if b = 0 then 1 else b
  | none => 1

theorem durBeatsD_pos (d : Duration) : 0 < durBeatsD d := by
  cases d <;> norm_num [durBeatsD, durationMapLookup]

/- ───────────────────── C7: key-signature detection ───────────────────── -/

/-- Key-signature type, the three classes of classifier K1. -/
inductive KSType where
  | noneT | sharps | flats
deriving DecidableEq, Repr

/-- Result record of `_detectKeySignature` (`{type, count}`; the
`semitoneShift` field is always 0 and is omitted).  `count` is an
integer because `indexOf` can return `-1`. -/
structure KeySigResult where
  type : KSType
  count : ℤ
deriving DecidableEq, Repr

/-- `Array.prototype.indexOf(target)`: index of the first occurrence,
`-1` if absent. -/
def indexOfQ (target : ℚ) : List ℚ → ℤ
  | [] => -1
  | h :: t =>
    if h = target then 0
    else
      let r := indexOfQ target t
      if r = -1 then -1 else r + 1

/-- `arr.indexOf(Math.max(...arr))`: first index of the maximum, `-1`
for the empty array (`Math.max()` is `-Infinity`, never an element). -/
def idxOfMax (l : List ℚ) : ℤ :=
  match l with
  | [] => -1
  | h :: t => indexOfQ (t.foldl max h) (h :: t)

theorem foldl_max_mem (t : List ℚ) (a : ℚ) : t.foldl max a ∈ a :: t := by
  induction t generalizing a with
  | nil => simp
  | cons b t ih =>
    have h := ih (max a b)
    rcases List.mem_cons.mp h with heq | hmem
    · rcases max_choice a b with hm | hm
      · rw [List.foldl_cons]
        rw [heq, hm]
        exact List.mem_cons_self a (b :: t)
      · rw [List.foldl_cons]
        rw [heq, hm]
        exact List.mem_cons_of_mem a (List.mem_cons_self b t)
    · rw [List.foldl_cons]
      exact List.mem_cons_of_mem a (List.mem_cons_of_mem b hmem)

theorem indexOfQ_mem_range (target : ℚ) (l : List ℚ) (h : target ∈ l) :
    0 ≤ indexOfQ target l ∧ indexOfQ target l < l.length := by
  induction l with
  | nil => simp at h
  | cons b t ih =>
    by_cases hb : b = target
    · simp only [indexOfQ, if_pos hb]
      refine ⟨le_refl 0, ?_⟩
      simp only [List.length_cons]
      positivity
    · have ht : target ∈ t := by
        rcases List.mem_cons.mp h with h1 | h1
        · exact absurd h1.symm hb
        · exact h1
      obtain ⟨h0, hlt⟩ := ih ht
      simp only [indexOfQ, if_neg hb]
      have hne : indexOfQ target t ≠ -1 := by omega
      rw [if_neg hne]
      simp only [List.length_cons]
      omega

theorem idxOfMax_range (l : List ℚ) (hl : l ≠ []) :
    0 ≤ idxOfMax l ∧ idxOfMax l < l.length := by
  match l with
  | [] => exact absurd rfl hl
  | h :: t =>
    simp only [idxOfMax]
    exact indexOfQ_mem_range _ _ (foldl_max_mem t h)

/-- `typeNames[keyCIdx] || 'None'`: indexing `['None','Sharps','Flats']`
with the JS out-of-range fallback. -/
def ksTypeOfIdx (i : ℤ) : KSType :=
  if i = 0 then .noneT else if i = 1 then .sharps else if i = 2 then .flats
  else .noneT

/-- `MusicSheetProcessor._detectKeySignature`, shallowly embedded.
The image preprocessing and the two neural classifiers are external
collaborators; their softmax outputs enter as the lists `keyC` (3
classes) and `keyD` (11 classes).  `stavesEmpty` is `staves.length === 0`
and `initialized` is `ModelService.getInstance().isInitialized`. -/
def detectKeySignature (stavesEmpty : Bool) (initialized : Bool)
    (keyC : List ℚ) (keyD : List ℚ) : KeySigResult :=
  if stavesEmpty then ⟨.noneT, 0⟩
  else if !initialized then ⟨.noneT, 0⟩
  else
    let ty := ksTypeOfIdx (idxOfMax keyC)
    if ty ≠ .noneT then ⟨ty, idxOfMax keyD⟩
    else ⟨ty, 0⟩

/-- C7 counterexample: with K1 voting `Sharps` and K2's argmax at class
8, `_detectKeySignature` returns `count = 8`; the code never clamps the
digit classifier's argmax to 7, so the claimed range `0..7` is violated. -/
theorem detectKeySignature_no_clamp_counterexample :
    (detectKeySignature false true [0, 1, 0]
      [0, 0, 0, 0, 0, 0, 0, 0, 1, 0, 0]).count = 8 ∧
    ¬ (detectKeySignature false true [0, 1, 0]
      [0, 0, 0, 0, 0, 0, 0, 0, 1, 0, 0]).count ≤ 7 := by
  constructor
  · decide
  · decide

/-- C7 (amended): for a Sharps/Flats verdict the count is the raw argmax
of the digit classifier's output with no clamping, so for the 11-class
output it lies in `0..10` (in general, below `keyD.length`) whenever
`keyD` is nonempty. -/
theorem detectKeySignature_count_range (initialized : Bool)
    (keyC keyD : List ℚ) (hD : keyD ≠ []) :
    0 ≤ (detectKeySignature false initialized keyC keyD).count ∧
    (detectKeySignature false initialized keyC keyD).count < keyD.length := by
  have hlen : (0:ℤ) < keyD.length := by
    have := List.length_pos.mpr hD
    exact_mod_cast this
  have hidx := idxOfMax_range keyD hD
  cases initialized with
  | false =>
    simp only [detectKeySignature, Bool.not_false, if_true,
      Bool.false_eq_true, if_false]
    exact ⟨le_refl 0, hlen⟩
  | true =>
    simp only [detectKeySignature, Bool.not_true, Bool.false_eq_true,
      if_false]
    by_cases hty : ksTypeOfIdx (idxOfMax keyC) ≠ KSType.noneT
    · rw [if_pos hty]
      exact hidx
    · rw [if_neg hty]
      exact ⟨le_refl 0, hlen⟩

/-- C7 amended-claim witness at a concrete 11-class output. -/
theorem detectKeySignature_count_range_witness :
    ([(0:ℚ), 0, 0, 0, 0, 0, 0, 0, 1, 0, 0] ≠ ([] : List ℚ)) ∧
    (0 ≤ (detectKeySignature false true [0, 1, 0]
        [0, 0, 0, 0, 0, 0, 0, 0, 1, 0, 0]).count ∧
      (detectKeySignature false true [0, 1, 0]
        [0, 0, 0, 0, 0, 0, 0, 0, 1, 0, 0]).count <
        ([(0:ℚ), 0, 0, 0, 0, 0, 0, 0, 1, 0, 0] : List ℚ).length) :=
  ⟨by decide,
    detectKeySignature_count_range true [0, 1, 0]
      [0, 0, 0, 0, 0, 0, 0, 0, 1, 0, 0] (by decide)⟩

/- ───────────────────── C8: OCR confidence gate ───────────────────── -/

/-- OCR class category from the label table. -/
inductive OcrCategory where
  | note | rest | unknown
deriving DecidableEq, Repr

/-- Outcome of the per-candidate confidence gate in
`_ocrConfidenceGate`: the candidate is dropped, or kept with its
`ocrLowConf` flag. -/
inductive GateOutcome where
  | rejected
  | kept (lowConf : Bool)
deriving DecidableEq, Repr

/-- The decision core of `MusicSheetProcessor._ocrConfidenceGate` for a
single candidate: `category` is the label-table category of the argmax
class, `p = maxProb`, `h = normalizedEntropy`. -/
def ocrGate (category : OcrCategory) (p h : ℚ) : GateOutcome :=
  if category = .rest ∧ p > 0.30 ∧ h < 0.80 then .rejected
  else if p > 0.15 ∧ h < 0.92 then .kept false
  else if p > 0.10 then .kept true
  else .rejected

/-- C8 counterexample: a candidate with `p = 1/2` and `H = 0.95` is kept
(with the `lowConf` flag), although the claim says it must be rejected
because `H ≥ 0.92`; and it is flagged `lowConf` with `p > 0.10`,
contradicting "lowConf exactly when `p ≤ 0.10`". -/
theorem ocrGate_counterexample :
    ocrGate .note (1/2) (0.95) = .kept true ∧
    ¬ (ocrGate .note (1/2) (0.95) = .rejected) ∧
    ¬ ((1:ℚ)/2 ≤ 0.10) := by
  refine ⟨by decide, by decide, by norm_num⟩

/-- C8 (amended): for a candidate not caught by the rest rule, the gate
rejects exactly when `p ≤ 0.10`; otherwise it keeps the candidate and
flags `lowConf` exactly when not (`p > 0.15` and `H < 0.92`). -/
theorem ocrGate_characterization (category : OcrCategory) (p h : ℚ)
    (hrest : ¬ (category = .rest ∧ p > 0.30 ∧ h < 0.80)) :
    ocrGate category p h =
      (if p ≤ 0.10 then .rejected
       else .kept (decide (¬ (p > 0.15 ∧ h < 0.92)))) := by
  unfold ocrGate
  rw [if_neg hrest]
  by_cases h1 : p > 0.15 ∧ h < 0.92
  · rw [if_pos h1]
    have hp : ¬ p ≤ 0.10 := by
      push_neg
      have := h1.1
      norm_num at this ⊢
      linarith
    rw [if_neg hp]
    simp [h1]
  · rw [if_neg h1]
    by_cases h2 : p > 0.10
    · rw [if_pos h2, if_neg (by push_neg; exact h2)]
      simp [h1]
    · rw [if_neg h2, if_pos (not_lt.mp h2)]

/-- C8 amended-claim witness: a concrete borderline candidate. -/
theorem ocrGate_characterization_witness :
    (¬ (OcrCategory.note = .rest ∧ (1:ℚ)/2 > 0.30 ∧ (0.95:ℚ) < 0.80)) ∧
    ocrGate .note (1/2) (0.95) =
      (if (1:ℚ)/2 ≤ 0.10 then .rejected
       else .kept (decide (¬ ((1:ℚ)/2 > 0.15 ∧ (0.95:ℚ) < 0.92)))) :=
  ⟨by decide, ocrGate_characterization .note (1/2) (0.95) (by decide)⟩

/- ───────────────────── C4: WAV encoding ───────────────────── -/

/-- Two little-endian bytes of a 16-bit unsigned value
(`DataView.setUint16(…, true)`). -/
def u16le (n : ℕ) : List ℕ := [n % 256, n / 256 % 256]

/-- Four little-endian bytes of a 32-bit unsigned value
(`DataView.setUint32(…, true)`). -/
def u32le (n : ℕ) : List ℕ :=
  [n % 256, n / 256 % 256, n / 65536 % 256, n / 16777216 % 256]

/-- Float-sample to int16 conversion of `writeWavToFile`:
`s = Math.max(-1, Math.min(1, x)); s < 0 ? s * 0x8000 : s * 0x7FFF`,
truncated to an integer by `setInt16`. -/
def sampleToI16 (x : ℚ) : ℤ :=
  let s := max (-1) (min 1 x)
  jsTrunc (if s < 0 then s * 32768 else s * 32767)

/-- Two little-endian bytes of an int16 value (two's complement). -/
def i16le (v : ℤ) : List ℕ := u16le (v % 65536).toNat

/-- `AudioPlaybackService.writeWavToFile` (HomeScreen.js), as the byte
sequence written to the file.  The file-system write, the temp-file
name, and the returned URI are external collaborators; the model
returns the WAV bytes.  A missing or empty buffer is replaced by
`Math.floor(44100 * 0.1)` zero samples (0.1 s of silence). -/
def writeWav (audioData : List ℚ) : List ℕ :=
  let sampleRate : ℕ := 44100
  let bytesPerSample : ℕ := 2
  let data := if audioData = [] then
      List.replicate (Nat.floor ((44100:ℚ) * 0.1)) (0:ℚ)
    else audioData
  let subChunk2Size := data.length * bytesPerSample
  [82, 73, 70, 70] ++                -- 'RIFF'
  u32le (36 + subChunk2Size) ++
  [87, 65, 86, 69] ++                -- 'WAVE'
  [102, 109, 116, 32] ++             -- 'fmt '
  u32le 16 ++
  u16le 1 ++                         -- PCM
  u16le 1 ++                         -- mono
  u32le sampleRate ++
  u32le (sampleRate * bytesPerSample) ++
  u16le bytesPerSample ++            -- block align
  u16le 16 ++                        -- bits per sample
  [100, 97, 116, 97] ++              -- 'data'
  u32le subChunk2Size ++
  data.flatMap (fun s => i16le (sampleToI16 s))

/-- The 44 header bytes exactly as the specification lists them:
`"RIFF" u32le(36+N) "WAVE" "fmt " u32le(16) u16le(1) u16le(1)
u32le(44100) u32le(88200) u16le(2) u16le(16) "data" u32le(N)`. -/
def wavHeaderSpec (N : ℕ) : List ℕ :=
  [82, 73, 70, 70] ++ u32le (36 + N) ++ [87, 65, 86, 69] ++
  [102, 109, 116, 32] ++ u32le 16 ++ u16le 1 ++ u16le 1 ++
  u32le 44100 ++ u32le 88200 ++ u16le 2 ++ u16le 16 ++
  [100, 97, 116, 97] ++ u32le N

theorem wavHeaderSpec_length (N : ℕ) : (wavHeaderSpec N).length = 44 := by
  simp [wavHeaderSpec, u32le, u16le]

/-- C4: for a non-empty sample buffer the encoder output is exactly the
44 spec header bytes for `N = 2 × samples` followed by the int16
little-endian encoding of each sample under clip-then-scale; in
particular the first 44 bytes are byte-exact. -/
theorem writeWav_layout (samples : List ℚ) (h : samples ≠ []) :
    writeWav samples =
      wavHeaderSpec (samples.length * 2) ++
        samples.flatMap (fun s => i16le (sampleToI16 s)) ∧
    (writeWav samples).take 44 = wavHeaderSpec (samples.length * 2) := by
  have hmain : writeWav samples =
      wavHeaderSpec (samples.length * 2) ++
        samples.flatMap (fun s => i16le (sampleToI16 s)) := by
    unfold writeWav wavHeaderSpec
    rw [if_neg h]
  refine ⟨hmain, ?_⟩
  rw [hmain]
  rw [List.take_append_of_le_length (by rw [wavHeaderSpec_length])]
  rw [List.take_of_length_le (by rw [wavHeaderSpec_length])]

/-- C4 witness: the encoder applied to a concrete five-sample buffer. -/
theorem writeWav_layout_witness :
    ([(1:ℚ), -1, 1/2, -3/4, 0] ≠ ([] : List ℚ)) ∧
    (writeWav [(1:ℚ), -1, 1/2, -3/4, 0] =
      wavHeaderSpec (([(1:ℚ), -1, 1/2, -3/4, 0]).length * 2) ++
        ([(1:ℚ), -1, 1/2, -3/4, 0]).flatMap
          (fun s => i16le (sampleToI16 s)) ∧
    (writeWav [(1:ℚ), -1, 1/2, -3/4, 0]).take 44 =
      wavHeaderSpec (([(1:ℚ), -1, 1/2, -3/4, 0]).length * 2)) :=
  ⟨by decide, writeWav_layout [(1:ℚ), -1, 1/2, -3/4, 0] (by decide)⟩

/- ───────────────────── C9: repeat expansion ───────────────────── -/

/-- A score event as seen by `_expandRepeats` (note or rest); `repeated`
is the `_repeated` marker added to duplicated events. -/
structure REvent where
  x : ℚ
  staffIndex : ℕ
  midiNote : ℤ
  repeated : Bool
deriving DecidableEq, Repr

/-- Bar-line types (`'single'`, `'double'`, `'final'`, `'repeat_start'`,
`'repeat_end'`, `'repeat_both'`). -/
inductive BarType where
  | single | double | finalBar | repeatStart | repeatEnd | repeatBoth
deriving DecidableEq, Repr

structure BarLine where
  x : ℚ
  staffIndex : ℕ
  type : BarType
deriving DecidableEq, Repr

def isRepeatBar (b : BarLine) : Bool :=
  b.type == BarType.repeatStart || b.type == BarType.repeatEnd ||
    b.type == BarType.repeatBoth

/-- `[...new Set(l)]`: deduplication keeping the first occurrence, the
iteration order of a JS `Set`. -/
def dedupKeepFirst [DecidableEq α] (l : List α) : List α :=
  l.foldl (fun acc a => if a ∈ acc then acc else acc ++ [a]) []

/-- An entry of `uniqueXBars`: a repeat barline deduplicated by x. -/
structure UXBar where
  x : ℚ
  type : BarType
deriving DecidableEq, Repr

/-- Mutate the first entry within 10 px of `x` to `repeat_both`
(`existing.type = 'repeat_both'` on the `find` result). -/
def markRepeatBoth : List UXBar → ℚ → List UXBar
  | [], _ => []
  | b :: t, x =>
    if |b.x - x| < 10 then { b with type := BarType.repeatBoth } :: t
    else b :: markRepeatBoth t x

/-- One step of the `uniqueXBars` deduplication loop. -/
def uniqueXStep (acc : List UXBar) (bar : BarLine) : List UXBar :=
  if acc.any (fun b => |b.x - bar.x| < 10) then
    if bar.type == BarType.repeatBoth then markRepeatBoth acc bar.x else acc
  else acc ++ [⟨bar.x, bar.type⟩]

/-- A repeat region `(leftX, rightX)`. -/
structure Region where
  leftX : ℚ
  rightX : ℚ
deriving DecidableEq, Repr

/-- One step of the repeat-region construction loop; the state carries
`repeatStartX` (`none` = `null`) and the regions found so far. -/
def regionStep (s : Option ℚ × List Region) (bar : UXBar) :
    Option ℚ × List Region :=
  match bar.type with
  | .repeatStart => (some bar.x, s.2)
  | .repeatEnd =>
    let leftX := s.1.getD 0
    ((none : Option ℚ),
      if bar.x > leftX then s.2 ++ [⟨leftX, bar.x⟩] else s.2)
  | .repeatBoth =>
    let leftX := s.1.getD 0
    (some bar.x,
      if bar.x > leftX then s.2 ++ [⟨leftX, bar.x⟩] else s.2)
  | _ => s

/-- Apply one repeat region: shift events past `rightX` and append the
duplicated region events (marked `_repeated`). -/
def applyRegion (evs : List REvent) (r : Region) : List REvent :=
  let regionEvs := evs.filter (fun e => r.leftX ≤ e.x ∧ e.x ≤ r.rightX)
  let xShift := r.rightX - r.leftX + 1
  (evs.map (fun e => if e.x > r.rightX then { e with x := e.x + xShift } else e))
    ++ regionEvs.map (fun e => { e with x := e.x + xShift, repeated := true })

/-- `MusicSheetProcessor._expandRepeats`, shallowly embedded. -/
def expandRepeats (notes rests : List REvent) (barLines : List BarLine) :
    List REvent × List REvent :=
  if barLines = [] then (notes, rests)
  else if !(barLines.any isRepeatBar) then (notes, rests)
  else if sortByJS (fun a b => decide (a ≤ b))
      (dedupKeepFirst (barLines.map (·.staffIndex))) = [] then (notes, rests)
  else
    let allBars := sortByJS (fun a b => decide (a.x ≤ b.x))
      (barLines.filter isRepeatBar)
    let uniqueXBars := allBars.foldl uniqueXStep []
    let repeatRegions := (uniqueXBars.foldl regionStep ((none : Option ℚ), [])).2
    if repeatRegions = [] then (notes, rests)
    else
      let sortedRegions := sortByJS (fun a b => decide (b.leftX ≤ a.leftX))
        repeatRegions
      (sortedRegions.foldl applyRegion notes,
       sortedRegions.foldl applyRegion rests)

/-- The comparison key of the idempotence claim. -/
def eventKey (e : REvent) : ℚ × ℕ × ℤ := (e.x, e.staffIndex, e.midiNote)

/-- C9 counterexample: one note at x=250 inside a repeat region
`repeat_start`@200 / `repeat_end`@600.  The first expansion yields two
notes; applying expansion again with the same bar-line list duplicates
the region once more, yielding three notes, so the event multisets
(compared by `(x, staffIndex, midiNote)`) differ. -/
theorem expandRepeats_not_idempotent :
    (expandRepeats
        (expandRepeats [⟨250, 0, 60, false⟩] []
          [⟨200, 0, .repeatStart⟩, ⟨600, 0, .repeatEnd⟩]).1
        (expandRepeats [⟨250, 0, 60, false⟩] []
          [⟨200, 0, .repeatStart⟩, ⟨600, 0, .repeatEnd⟩]).2
        [⟨200, 0, .repeatStart⟩, ⟨600, 0, .repeatEnd⟩]).1.length = 3 ∧
    (expandRepeats [⟨250, 0, 60, false⟩] []
        [⟨200, 0, .repeatStart⟩, ⟨600, 0, .repeatEnd⟩]).1.length = 2 ∧
    ¬ ((expandRepeats
        (expandRepeats [⟨250, 0, 60, false⟩] []
          [⟨200, 0, .repeatStart⟩, ⟨600, 0, .repeatEnd⟩]).1
        (expandRepeats [⟨250, 0, 60, false⟩] []
          [⟨200, 0, .repeatStart⟩, ⟨600, 0, .repeatEnd⟩]).2
        [⟨200, 0, .repeatStart⟩, ⟨600, 0, .repeatEnd⟩]).1.map eventKey).Perm
      ((expandRepeats [⟨250, 0, 60, false⟩] []
        [⟨200, 0, .repeatStart⟩, ⟨600, 0, .repeatEnd⟩]).1.map eventKey) := by
  refine ⟨by decide, by decide, ?_⟩
  intro hperm
  have hlen := hperm.length_eq
  rw [List.length_map, List.length_map] at hlen
  rw [(by decide : (expandRepeats
        (expandRepeats [⟨250, 0, 60, false⟩] []
          [⟨200, 0, .repeatStart⟩, ⟨600, 0, .repeatEnd⟩]).1
        (expandRepeats [⟨250, 0, 60, false⟩] []
          [⟨200, 0, .repeatStart⟩, ⟨600, 0, .repeatEnd⟩]).2
        [⟨200, 0, .repeatStart⟩, ⟨600, 0, .repeatEnd⟩]).1.length = 3)] at hlen
  rw [(by decide : (expandRepeats [⟨250, 0, 60, false⟩] []
        [⟨200, 0, .repeatStart⟩, ⟨600, 0, .repeatEnd⟩]).1.length = 2)] at hlen
  exact absurd hlen (by decide)

/-- C9 (amended): repeat expansion is not idempotent in general — a
second application duplicates each repeat region's events again.  It is
the identity (hence trivially idempotent) whenever the bar-line list
contains no repeat barlines. -/
theorem expandRepeats_id_of_no_repeats (notes rests : List REvent)
    (barLines : List BarLine)
    (h : ∀ b ∈ barLines, isRepeatBar b = false) :
    expandRepeats notes rests barLines = (notes, rests) := by
  unfold expandRepeats
  by_cases hb : barLines = []
  · rw [if_pos hb]
  · rw [if_neg hb]
    have hany : barLines.any isRepeatBar = false := by
      rw [List.any_eq_false]
      intro b hbmem
      simp [h b hbmem]
    rw [hany]
    simp

/-- C9 amended-claim witness: an input with only single barlines. -/
theorem expandRepeats_id_of_no_repeats_witness :
    (∀ b ∈ [(⟨100, 0, .single⟩ : BarLine), ⟨300, 0, .double⟩],
      isRepeatBar b = false) ∧
    expandRepeats [⟨250, 0, 60, false⟩] [⟨50, 0, 0, false⟩]
        [⟨100, 0, .single⟩, ⟨300, 0, .double⟩] =
      ([⟨250, 0, 60, false⟩], [⟨50, 0, 0, false⟩]) :=
  ⟨by decide,
    expandRepeats_id_of_no_repeats [⟨250, 0, 60, false⟩] [⟨50, 0, 0, false⟩]
      [⟨100, 0, .single⟩, ⟨300, 0, .double⟩] (by decide)⟩

/- ───────────────────── C1: pitch mapping ───────────────────── -/

/-- Inline accidental glyphs (`'sharp' | 'flat' | 'natural'`); `none`
models `null` / any other value on `head.accidental`. -/
inductive Accidental where
  | sharp | flat | natural
deriving DecidableEq, Repr

inductive Clef where
  | treble | bass | alto | soprano | tenor
deriving DecidableEq, Repr

inductive NoteName where
  | A | B | C | D | E | F | G
deriving DecidableEq, Repr

/-- A detected staff: the five line y-coordinates `staff[0] .. staff[4]`
(top line to bottom line; y grows downward). -/
structure Staff where
  l0 : ℚ
  l1 : ℚ
  l2 : ℚ
  l3 : ℚ
  l4 : ℚ
deriving DecidableEq, Repr

/-- `staff[i]` for `i ∈ 0..4`. -/
def staffLine (s : Staff) : ℕ → ℚ
  | 0 => s.l0
  | 1 => s.l1
  | 2 => s.l2
  | 3 => s.l3
  | _ => s.l4

/-- A note-head candidate as consumed by `_mapToPitches`; only the
fields the function reads are modelled (the JS object spread carries
the rest through unchanged). -/
structure NoteHead where
  x : ℚ
  y : ℚ
  staffIndex : ℕ
  accidental : Option Accidental
deriving DecidableEq, Repr

/-- The output of `_mapToPitches` for one head.  `clefType` is `none`
for the fallback objects that are built without a clef field. -/
structure PitchedNote where
  x : ℚ
  y : ℚ
  staffIndex : ℕ
  accidental : Option Accidental
  pitch : NoteName
  midiNote : ℤ
  staffPosition : ℤ
  clefType : Option Clef
deriving DecidableEq, Repr

instance : Inhabited PitchedNote := ⟨⟨0, 0, 0, none, .C, 60, 0, none⟩⟩

/-- The detected key signature handed to `_mapToPitches`
(`{type, count}`). -/
structure KeySig where
  type : KSType
  count : ℤ
deriving DecidableEq, Repr

/-- `_TREBLE_TABLE`: staffPosition −4..13 → (name, midi). -/
def trebleTable : List (NoteName × ℤ) :=
  [(.A, 57), (.B, 59), (.C, 60), (.D, 62), (.E, 64), (.F, 65), (.G, 67),
   (.A, 69), (.B, 71), (.C, 72), (.D, 74), (.E, 76), (.F, 77), (.G, 79),
   (.A, 81), (.B, 83), (.C, 84), (.D, 86)]

/-- `_BASS_TABLE`. -/
def bassTable : List (NoteName × ℤ) :=
  [(.C, 36), (.D, 38), (.E, 40), (.F, 41), (.G, 43), (.A, 45), (.B, 47),
   (.C, 48), (.D, 50), (.E, 52), (.F, 53), (.G, 55), (.A, 57), (.B, 59),
   (.C, 60), (.D, 62), (.E, 64), (.F, 65)]

/-- `_ALTO_TABLE`. -/
def altoTable : List (NoteName × ℤ) :=
  [(.B, 47), (.C, 48), (.D, 50), (.E, 52), (.F, 53), (.G, 55), (.A, 57),
   (.B, 59), (.C, 60), (.D, 62), (.E, 64), (.F, 65), (.G, 67), (.A, 69),
   (.B, 71), (.C, 72), (.D, 74), (.E, 76)]

/-- `_SOPRANO_TABLE`. -/
def sopranoTable : List (NoteName × ℤ) :=
  [(.E, 40), (.F, 41), (.G, 43), (.A, 45), (.B, 47), (.C, 48), (.D, 50),
   (.E, 52), (.F, 53), (.G, 55), (.A, 57), (.B, 59), (.C, 60), (.D, 62),
   (.E, 64), (.F, 65), (.G, 67), (.A, 69)]

/-- `_TENOR_TABLE`. -/
def tenorTable : List (NoteName × ℤ) :=
  [(.D, 50), (.E, 52), (.F, 53), (.G, 55), (.A, 57), (.B, 59), (.C, 60),
   (.D, 62), (.E, 64), (.F, 65), (.G, 67), (.A, 69), (.B, 71), (.C, 72),
   (.D, 74), (.E, 76), (.F, 77), (.G, 79)]

/-- Sharps order F C G D A E B (circle of fifths). -/
def sharpNotes : List NoteName := [.F, .C, .G, .D, .A, .E, .B]

/-- Flats order B E A D G C F. -/
def flatNotes : List NoteName := [.B, .E, .A, .D, .G, .C, .F]

/-- The set `keySigNotes`: the first `min(count, 7)` letters of the
relevant order (the loop `for i < Math.min(count, order.length)`). -/
def keySigNotes (ks : KeySig) : List NoteName :=
  match ks.type with
  | .sharps => sharpNotes.take (min ks.count 7).toNat
  | .flats => flatNotes.take (min ks.count 7).toNat
  | .noneT => []

/-- Sorted bar-line x positions of one staff (`barBoundaries`). -/
def barBoundariesFor (barLines : List BarLine) (si : ℕ) : List ℚ :=
  sortByJS (fun a b => decide (a ≤ b))
    ((barLines.filter (fun b => b.staffIndex == si)).map (·.x))

/-- The `getMeasureId` walk: count boundaries with `x ≥ bx`, stopping at
the first failure (the list is sorted ascending). -/
def countBoundaries (x : ℚ) : List ℚ → ℕ
  | [] => 0
  | b :: t => if x ≥ b then 1 + countBoundaries x t else 0

def getMeasureId (barLines : List BarLine) (si : ℕ) (x : ℚ) : ℕ :=
  countBoundaries x (barBoundariesFor barLines si)

/-- The per-measure accidental state: newest binding first, so a
prepended entry overwrites (models `Map.set`). -/
def AccState : Type := List ((ℕ × ℕ × ℤ) × Accidental)

/-- The body of the `sortedHeads.map` callback of `_mapToPitches` for
one head, threading the accidental-state map.  Notes: JS division by a
zero `halfSpace` would produce NaN and a downstream crash (no note is
emitted); the `ℚ` model returns 0 there, which only widens the set of
inputs the range theorem covers.  `table[tableIdx]` is always in range
after the clamp; the model uses `getD` with a dummy entry. -/
def processHead (staves : List Staff) (systems : List (List ℕ))
    (keySignature : KeySig) (clefs : Option (List Clef))
    (barLines : List BarLine) (st : AccState) (head : NoteHead) :
    PitchedNote × AccState :=
  match staves.get? head.staffIndex with
  | none =>
    -- `if (!staff) return { ...head, pitch: 'C', midiNote: 60, octave: 4, staffPosition: 0 }`
    ({ x := head.x, y := head.y, staffIndex := head.staffIndex,
       accidental := head.accidental, pitch := .C, midiNote := 60,
       staffPosition := 0, clefType := none }, st)
  | some staff =>
    let spacing := (staff.l4 - staff.l0) / 4
    let halfSpace := spacing / 2
    -- knownPositions: 5 lines, 4 spaces, then 4 pairs of extensions
    let knownPositions : List (ℚ × ℤ) :=
      ((List.range 5).map (fun li =>
          (staffLine staff (4 - li), (li * 2 : ℤ)))) ++
      ((List.range 4).map (fun li =>
          ((staffLine staff (4 - li) + staffLine staff (4 - li - 1)) / 2,
            (li * 2 + 1 : ℤ)))) ++
      ((List.range 4).flatMap (fun e =>
          let ext : ℕ := e + 1
          [(staff.l4 + halfSpace * ext, -(ext : ℤ)),
           (staff.l0 - halfSpace * ext, 8 + (ext : ℤ))]))
    -- strict-minimum scan (`bestDist` starts at Infinity, modelled `none`)
    let best := knownPositions.foldl
      (fun (b : Option ℚ × ℤ) (kp : ℚ × ℤ) =>
        let dist := |head.y - kp.1|
        match b.1 with
        | none => (some dist, kp.2)
        | some bd => if dist < bd then (some dist, kp.2) else b)
      ((none : Option ℚ), 0)
    let staffPosition :=
      match best.1 with
      | some bd =>
        if bd > halfSpace * 0.6 then jsRound ((staff.l4 - head.y) / halfSpace)
        else best.2
      | none => jsRound ((staff.l4 - head.y) / halfSpace)
    -- clef resolution
    let clefType :=
      match clefs with
      | some cl =>
        match cl.get? head.staffIndex with
        | some c => c
        | none =>
          if systems.any (fun s =>
              s.length = 2 && s.get? 1 == some head.staffIndex)
          then Clef.bass else Clef.treble
      | none =>
        if systems.any (fun s =>
            s.length = 2 && s.get? 1 == some head.staffIndex)
        then Clef.bass else Clef.treble
    let table :=
      match clefType with
      | .soprano => sopranoTable
      | .tenor => tenorTable
      | .alto => altoTable
      | .bass => bassTable
      | .treble => trebleTable
    let minPos : ℤ := -4
    let maxPos : ℤ := table.length - 1 - 4
    let clampedPos := max minPos (min maxPos staffPosition)
    let tableIdx := (clampedPos + 4).toNat
    let entry := table.getD tableIdx (.C, 60)
    let pitchName := entry.1
    let midi0 := entry.2
    -- octave extrapolation outside the table
    let midi1 :=
      if staffPosition < minPos then
        midi0 - Int.ceil (((minPos - staffPosition : ℤ) : ℚ) / 7) * 12
      else if staffPosition > maxPos then
        midi0 + Int.ceil (((staffPosition - maxPos : ℤ) : ℚ) / 7) * 12
      else midi0
    let measureId := getMeasureId barLines head.staffIndex head.x
    let stateKey : ℕ × ℕ × ℤ := (head.staffIndex, measureId, staffPosition)
    let inKeySig := keySigNotes keySignature |>.contains pitchName
    -- Step 1: apply the key signature
    let midi2 :=
      if inKeySig then
        match keySignature.type with
        | .sharps => midi1 + 1
        | .flats => midi1 - 1
        | .noneT => midi1
      else midi1
    -- Step 2: record an explicit inline accidental
    let st1 : AccState :=
      match head.accidental with
      | some a => (stateKey, a) :: st
      | none => st
    -- Step 3: apply the active accidental for this position/measure
    let midi3 :=
      match st1.lookup stateKey with
      | some .sharp =>
        if inKeySig then
          match keySignature.type with
          | .sharps => midi2
          | .flats => midi2 + 1 + 1
          | .noneT => midi2
        else midi2 + 1
      | some .flat =>
        if inKeySig then
          match keySignature.type with
          | .flats => midi2
          | .sharps => midi2 - 1 - 1
          | .noneT => midi2
        else midi2 - 1
      | some .natural =>
        if inKeySig then
          match keySignature.type with
          | .sharps => midi2 - 1
          | .flats => midi2 + 1
          | .noneT => midi2
        else midi2
      | none => midi2
    -- Clamp to the piano range
    let midiFinal := max 21 (min 108 midi3)
    ({ x := head.x, y := head.y, staffIndex := head.staffIndex,
       accidental := head.accidental, pitch := pitchName,
       midiNote := midiFinal, staffPosition := staffPosition,
       clefType := some clefType }, st1)

/-- The stateful `sortedHeads.map` of `_mapToPitches`: each head is
processed in sorted order while the accidental map is threaded through;
the original index tags keep the object identity of the JS heads. -/
def mapPitchRun (staves : List Staff) (systems : List (List ℕ))
    (keySignature : KeySig) (clefs : Option (List Clef))
    (barLines : List BarLine) :
    AccState → List (ℕ × NoteHead) → List (ℕ × PitchedNote)
  | _, [] => []
  | st, (i, h) :: t =>
    let pr := processHead staves systems keySignature clefs barLines st h
    (i, pr.1) :: mapPitchRun staves systems keySignature clefs barLines pr.2 t

/-- `MusicSheetProcessor._mapToPitches`, shallowly embedded.  Heads are
tagged with their original index, stably sorted by `(staffIndex, x)`,
processed in that order, and the results are returned in the original
order; the `headToResult.get(h) || {...h, pitch:'C', midiNote:60, …}`
fallback is the `lookup … | none` branch. -/
def mapToPitches (noteHeads : List NoteHead) (staves : List Staff)
    (systems : List (List ℕ)) (keySignature : KeySig)
    (clefs : Option (List Clef)) (barLines : List BarLine) :
    List PitchedNote :=
  let indexed := noteHeads.enum
  let sorted := sortByJS
    (fun a b => decide (if a.2.staffIndex = b.2.staffIndex then a.2.x ≤ b.2.x
      else a.2.staffIndex ≤ b.2.staffIndex)) indexed
  let results := mapPitchRun staves systems keySignature clefs barLines [] sorted
  noteHeads.enum.map (fun p =>
    match results.lookup p.1 with
    | some r => r
    | none =>
      { x := p.2.x, y := p.2.y, staffIndex := p.2.staffIndex,
        accidental := p.2.accidental, pitch := .C, midiNote := 60,
        staffPosition := 0, clefType := none })

theorem clamp_midi_range (m : ℤ) :
    21 ≤ max 21 (min 108 m) ∧ max 21 (min 108 m) ≤ 108 :=
  ⟨le_max_left _ _, max_le (by norm_num) (min_le_left _ _)⟩

theorem processHead_midi_range (staves : List Staff)
    (systems : List (List ℕ)) (ks : KeySig) (clefs : Option (List Clef))
    (barLines : List BarLine) (st : AccState) (head : NoteHead) :
    21 ≤ (processHead staves systems ks clefs barLines st head).1.midiNote ∧
    (processHead staves systems ks clefs barLines st head).1.midiNote ≤ 108 := by
  unfold processHead
  cases hst : staves.get? head.staffIndex with
  | none => simp
  | some staff =>
    simp only
    exact clamp_midi_range _

theorem mapPitchRun_midi_range (staves : List Staff)
    (systems : List (List ℕ)) (ks : KeySig) (clefs : Option (List Clef))
    (barLines : List BarLine) (st : AccState) (l : List (ℕ × NoteHead)) :
    ∀ p ∈ mapPitchRun staves systems ks clefs barLines st l,
      21 ≤ p.2.midiNote ∧ p.2.midiNote ≤ 108 := by
  induction l generalizing st with
  | nil => intro p hp; simp [mapPitchRun] at hp
  | cons a t ih =>
    intro p hp
    match a with
    | (i, h) =>
      rw [mapPitchRun] at hp
      rcases List.mem_cons.mp hp with heq | hmem
      · subst heq
        exact processHead_midi_range staves systems ks clefs barLines st h
      · exact ih _ p hmem

theorem lookup_prop {β : Type} [DecidableEq β] (P : β → Prop)
    (l : List (ℕ × β)) (hall : ∀ p ∈ l, P p.2) (k : ℕ) (v : β)
    (h : l.lookup k = some v) : P v := by
  induction l with
  | nil => simp [List.lookup] at h
  | cons a t ih =>
    rw [List.lookup] at h
    cases hk : (k == a.1) with
    | true =>
      simp only [hk] at h
      cases h
      exact hall a (List.mem_cons_self a t)
    | false =>
      simp only [hk] at h
      exact ih (fun p hp => hall p (List.mem_cons_of_mem a hp)) h

/-- C1: every note emitted by `_mapToPitches` has `midiNote ∈ [21, 108]`,
for every staff layout, clef assignment, key signature, bar-line list
and inline-accidental configuration. -/
theorem mapToPitches_midi_range (noteHeads : List NoteHead)
    (staves : List Staff) (systems : List (List ℕ)) (ks : KeySig)
    (clefs : Option (List Clef)) (barLines : List BarLine) :
    ∀ r ∈ mapToPitches noteHeads staves systems ks clefs barLines,
      21 ≤ r.midiNote ∧ r.midiNote ≤ 108 := by
  intro r hr
  unfold mapToPitches at hr
  simp only [List.mem_map] at hr
  obtain ⟨p, _, hpr⟩ := hr
  revert hpr
  cases hlk : (mapPitchRun staves systems ks clefs barLines []
      (sortByJS (fun a b => decide (if a.2.staffIndex = b.2.staffIndex
        then a.2.x ≤ b.2.x else a.2.staffIndex ≤ b.2.staffIndex))
        noteHeads.enum)).lookup p.1 with
  | none =>
    intro hpr
    rw [← hpr]
    norm_num
  | some r0 =>
    intro hpr
    rw [← hpr]
    exact lookup_prop (fun v => 21 ≤ v.midiNote ∧ v.midiNote ≤ 108) _
      (mapPitchRun_midi_range staves systems ks clefs barLines [] _)
      p.1 r0 hlk

/-- C1 witness: a concrete single head on a concrete staff. -/
theorem mapToPitches_midi_range_witness :
    ((mapToPitches [⟨100, 50, 0, none⟩] [⟨10, 20, 30, 40, 50⟩] []
        ⟨.noneT, 0⟩ none []).headI ∈
      mapToPitches [⟨100, 50, 0, none⟩] [⟨10, 20, 30, 40, 50⟩] []
        ⟨.noneT, 0⟩ none []) ∧
    (21 ≤ (mapToPitches [⟨100, 50, 0, none⟩] [⟨10, 20, 30, 40, 50⟩] []
        ⟨.noneT, 0⟩ none []).headI.midiNote ∧
      (mapToPitches [⟨100, 50, 0, none⟩] [⟨10, 20, 30, 40, 50⟩] []
        ⟨.noneT, 0⟩ none []).headI.midiNote ≤ 108) :=
  ⟨by decide,
    mapToPitches_midi_range [⟨100, 50, 0, none⟩] [⟨10, 20, 30, 40, 50⟩] []
      ⟨.noneT, 0⟩ none []
      ((mapToPitches [⟨100, 50, 0, none⟩] [⟨10, 20, 30, 40, 50⟩] []
        ⟨.noneT, 0⟩ none []).headI) (by decide)⟩

/- ───────────────────── C2: tie detection / resolution ───────────────────── -/

/-- `_beatsToDuration`: map a beat count to the closest named duration. -/
def beatsToDuration (beats : ℚ) : Duration :=
  if beats ≥ 5.5 then .dottedWhole
  else if beats ≥ 3.5 then .whole
  else if beats ≥ 2.5 then .dottedHalf
  else if beats ≥ 1.75 then .half
  else if beats ≥ 1.25 then .dottedQuarter
  else if beats ≥ 0.875 then .quarter
  else if beats ≥ 0.625 then .dottedEighth
  else if beats ≥ 0.375 then .eighth
  else if beats ≥ 0.3 then .dottedSixteenth
  else .sixteenth

/-- A note as consumed by `_detectTies` on one staff (only the fields
the function reads and writes are modelled). -/
structure TNote where
  x : ℚ
  midiNote : ℤ
  duration : Duration
  tiedBeats : Option ℚ
  tied : Bool
deriving DecidableEq, Repr

/-- Last element of `l`, or `a` when `l` is empty (the last member of
the chain `a :: l`). -/
def lastOr {α : Type} : List α → α → α
  | [], a => a
  | b :: t, _ => lastOr t b

theorem getLast?_eq_lastOr {α : Type} (t : List α) (a : α) :
    (a :: t).getLast? = some (lastOr t a) := by
  induction t generalizing a with
  | nil => rfl
  | cons b t2 ih =>
    rw [List.getLast?_cons_cons, ih b]
    rfl

/-- The chain-extension test of `_detectTies`: same `midiNote`,
`0 < dx ≤ spacing × 8`, and a tie arc found by the pixel scan.  The
pixel-band scan `_hasTieArc(data, width, height, a, b, spacing)` runs
against the fixed image, so it enters the model as the oracle `arc`. -/
def tieLink (arc : TNote → TNote → Bool) (spacing : ℚ) (a b : TNote) :
    Bool :=
  a.midiNote == b.midiNote &&
    (decide (0 < b.x - a.x) && decide (b.x - a.x ≤ spacing * 8)) &&
    arc a b

/-- The inner `while (j < staffNotes.length)` walk: consume successive
notes as long as each extends the chain from the previous head.
Returns `(chainRemove, rest)`. -/
def takeChain (link : TNote → TNote → Bool) : TNote → List TNote →
    List TNote × List TNote
  | _, [] => ([], [])
  | h, b :: t =>
    if link h b then
      ((b :: (takeChain link b t).1), (takeChain link b t).2)
    else ([], b :: t)

theorem takeChain_parts (link : TNote → TNote → Bool) (h : TNote)
    (l : List TNote) :
    (takeChain link h l).1 ++ (takeChain link h l).2 = l := by
  induction l generalizing h with
  | nil => simp [takeChain]
  | cons b t ih =>
    rw [takeChain]
    by_cases hl : link h b
    · simp only [if_pos hl, List.cons_append, ih b]
    · simp only [if_neg hl, List.nil_append]

theorem takeChain_snd_length (link : TNote → TNote → Bool) (h : TNote)
    (l : List TNote) :
    (takeChain link h l).2.length ≤ l.length := by
  have h1 := congrArg List.length (takeChain_parts link h l)
  rw [List.length_append] at h1
  omega

/-- The collapsed survivor of a chain: the chain start with `tiedBeats`
set to the summed beats, the closest named duration, and `tied = true`
(lines 3397–3408 of MusicSheetProcessor.js). -/
def mkTied (a : TNote) (c : List TNote) : TNote :=
  let total := durBeatsD a.duration + (c.map (fun n => durBeatsD n.duration)).sum
  { a with tiedBeats := some total, duration := beatsToDuration total,
           tied := true }

/-- The outer `while (i < staffNotes.length - 1)` walk of `_detectTies`
over one staff's x-sorted notes, combined with the final
`notes.filter(n => !tiedSet.has(n))`: chains collapse to their
`mkTied` survivor, consumed notes disappear, everything else stays. -/
def procTies (link : TNote → TNote → Bool) : List TNote → List TNote
  | [] => []
  | a :: t =>
    let cr := takeChain link a t
    if cr.1 = [] then a :: procTies link t
    else mkTied a cr.1 :: procTies link cr.2
termination_by l => l.length
decreasing_by
  · simp only [List.length_cons]
    omega
  · have h1 := takeChain_snd_length link a t
    simp only [List.length_cons]
    omega

theorem takeChain_append_snd_ne (link : TNote → TNote → Bool) (a : TNote)
    (u v : List TNote) (h : (takeChain link a u).2 ≠ []) :
    takeChain link a (u ++ v) =
      ((takeChain link a u).1, (takeChain link a u).2 ++ v) := by
  induction u generalizing a with
  | nil => simp [takeChain] at h
  | cons b t ih =>
    simp only [List.cons_append, takeChain, List.append_eq] at h ⊢
    by_cases hl : link a b
    · simp only [if_pos hl] at h ⊢
      rw [ih b h]
    · simp only [if_neg hl] at h ⊢
      rw [List.cons_append]

theorem takeChain_full (link : TNote → TNote → Bool) (a : TNote)
    (u : List TNote) (v0 : TNote) (vs : List TNote)
    (h : takeChain link a u = (u, []))
    (hb : link (lastOr u a) v0 = false) :
    takeChain link a (u ++ v0 :: vs) = (u, v0 :: vs) := by
  induction u generalizing a with
  | nil =>
    rw [lastOr] at hb
    rw [List.nil_append, takeChain, hb]
    simp
  | cons b t ih =>
    rw [takeChain] at h
    by_cases hl : link a b
    · simp only [if_pos hl, Prod.mk.injEq, List.cons.injEq] at h
      obtain ⟨⟨_, h1⟩, h2⟩ := h
      have ht : takeChain link b t = (t, []) := by
        rw [Prod.ext_iff]
        exact ⟨h1, h2⟩
      have hb2 : link (lastOr t b) v0 = false := by
        rw [lastOr] at hb
        exact hb
      rw [List.cons_append, takeChain]
      simp only [if_pos hl, ih b ht hb2]
    · simp only [if_neg hl, Prod.mk.injEq] at h
      exact absurd h.1.symm (List.cons_ne_nil b t)

theorem takeChain_of_chain (link : TNote → TNote → Bool) (c0 : TNote)
    (crest post : List TNote)
    (hlinks : List.Chain (fun x y => link x y = true) c0 crest)
    (hblock : ∀ p0 ∈ post.head?, link (lastOr crest c0) p0 = false) :
    takeChain link c0 (crest ++ post) = (crest, post) := by
  induction crest generalizing c0 with
  | nil =>
    cases post with
    | nil => simp [takeChain]
    | cons p0 ps =>
      have hb := hblock p0 (by simp)
      rw [lastOr] at hb
      rw [List.nil_append, takeChain, hb]
      simp
  | cons b cr ih =>
    obtain ⟨hl, hch⟩ := List.chain_cons.mp hlinks
    have hblock2 : ∀ p0 ∈ post.head?, link (lastOr cr b) p0 = false := by
      intro p0 hp0
      have h1 := hblock p0 hp0
      rw [lastOr] at h1
      exact h1
    rw [List.cons_append, takeChain]
    simp only [hl, if_true, ih b hch hblock2]

theorem procTies_cons_chain (link : TNote → TNote → Bool) (c0 : TNote)
    (crest post : List TNote) (hcr : crest ≠ [])
    (hlinks : List.Chain (fun x y => link x y = true) c0 crest)
    (hblock : ∀ p0 ∈ post.head?, link (lastOr crest c0) p0 = false) :
    procTies link (c0 :: (crest ++ post)) =
      mkTied c0 crest :: procTies link post := by
  rw [procTies]
  simp only [takeChain_of_chain link c0 crest post hlinks hblock]
  rw [if_neg hcr]

theorem procTies_append_blocked (link : TNote → TNote → Bool) :
    ∀ (n : ℕ) (pre rest : List TNote), pre.length ≤ n →
    (∀ lp ∈ pre.getLast?, ∀ r0 ∈ rest.head?, link lp r0 = false) →
    procTies link (pre ++ rest) = procTies link pre ++ procTies link rest := by
  intro n
  induction n with
  | zero =>
    intro pre rest hlen _
    have hpre : pre = [] := List.eq_nil_of_length_eq_zero (Nat.le_zero.mp hlen)
    subst hpre
    simp [procTies]
  | succ n ih =>
    intro pre rest hlen hblock
    match pre with
    | [] => simp [procTies]
    | a :: t =>
      have hparts := takeChain_parts link a t
      by_cases hr : (takeChain link a t).2 = []
      · have hct : (takeChain link a t).1 = t := by
          rw [hr] at hparts
          simpa using hparts
        have htc0 : takeChain link a t = (t, []) := by
          rw [Prod.ext_iff]
          exact ⟨hct, hr⟩
        cases rest with
        | nil => simp [procTies]
        | cons r0 rs =>
          have hb : link (lastOr t a) r0 = false := by
            apply hblock
            · rw [getLast?_eq_lastOr]
              simp
            · simp
          have htc : takeChain link a (t ++ r0 :: rs) = (t, r0 :: rs) :=
            takeChain_full link a t r0 rs htc0 hb
          rw [List.cons_append, procTies]
          simp only [htc]
          by_cases ht : t = []
          · subst ht
            simp only [if_pos rfl, List.nil_append]
            have hsing : procTies link [a] = [a] := by
              rw [procTies]
              simp [takeChain, procTies]
            rw [hsing]
            rfl
          · simp only [if_neg ht]
            have hR : procTies link (a :: t) = [mkTied a t] := by
              rw [procTies]
              simp only [htc0, if_neg ht]
              rw [procTies]
            rw [hR]
            rfl
      · have happ := takeChain_append_snd_ne link a t rest hr
        have htne : t ≠ [] := by
          intro h0
          subst h0
          simp [takeChain] at hr
        have hlast2 : (a :: t).getLast? = t.getLast? := by
          match t, htne with
          | b :: t2, _ => exact List.getLast?_cons_cons
        rw [List.cons_append, procTies]
        simp only [happ]
        by_cases hc : (takeChain link a t).1 = []
        · -- empty chain: both sides recurse on the tail
          simp only [if_pos hc]
          have hR : procTies link (a :: t) = a :: procTies link t := by
            rw [procTies]
            simp only [if_pos hc]
          rw [hR]
          have hblock2 : ∀ lp ∈ t.getLast?, ∀ r0 ∈ rest.head?,
              link lp r0 = false := by
            intro lp hlp r0 hr0
            apply hblock lp _ r0 hr0
            rw [hlast2]
            exact hlp
          have htlen : t.length ≤ n := by
            simp only [List.length_cons] at hlen
            omega
          rw [ih t rest htlen hblock2]
          rfl
        · -- nonempty chain: both sides emit the survivor and recurse
          simp only [if_neg hc]
          have hR : procTies link (a :: t) =
              mkTied a (takeChain link a t).1 :: procTies link
                (takeChain link a t).2 := by
            rw [procTies]
            simp only [if_neg hc]
          rw [hR]
          have hrlast : (takeChain link a t).2.getLast? = t.getLast? := by
            conv_rhs => rw [← hparts]
            rw [List.getLast?_append_of_ne_nil _ hr]
          have hblock2 : ∀ lp ∈ (takeChain link a t).2.getLast?,
              ∀ r0 ∈ rest.head?, link lp r0 = false := by
            intro lp hlp r0 hr0
            apply hblock lp _ r0 hr0
            rw [hlast2, ← hrlast]
            exact hlp
          have hrlen : (takeChain link a t).2.length ≤ n := by
            have := takeChain_snd_length link a t
            simp only [List.length_cons] at hlen
            omega
          rw [ih (takeChain link a t).2 rest hrlen hblock2]
          rfl

/-- C2: a maximal tie chain `c0 :: crest` (with `k = crest.length + 1 ≥ 2`
members, consecutive links all satisfied, and the chain not extendable
backwards past `pre` nor forwards into `post`) collapses to exactly one
surviving note: the chain start with `tiedBeats` equal to the sum of
the beat values of all `k` member durations and the duration relabelled
by `_beatsToDuration`; the other `k − 1` members are removed and the
rest of the staff is processed independently (second conjunct: the
whole chain region contributes exactly one output element). -/
theorem detectTies_chain_collapse (arc : TNote → TNote → Bool)
    (spacing : ℚ) (pre : List TNote) (c0 : TNote) (crest post : List TNote)
    (hcr : crest ≠ [])
    (hlinks : List.Chain (fun x y => tieLink arc spacing x y = true) c0 crest)
    (hpre : ∀ lp ∈ pre.getLast?, tieLink arc spacing lp c0 = false)
    (hpost : ∀ p0 ∈ post.head?,
      tieLink arc spacing (lastOr crest c0) p0 = false) :
    procTies (tieLink arc spacing) (pre ++ (c0 :: crest) ++ post) =
      procTies (tieLink arc spacing) pre ++
        ({ c0 with
            tiedBeats := some (((c0 :: crest).map
              (fun n => durBeatsD n.duration)).sum),
            duration := beatsToDuration (((c0 :: crest).map
              (fun n => durBeatsD n.duration)).sum),
            tied := true } :: procTies (tieLink arc spacing) post) ∧
    (procTies (tieLink arc spacing) (pre ++ (c0 :: crest) ++ post)).length =
      (procTies (tieLink arc spacing) pre).length + 1 +
        (procTies (tieLink arc spacing) post).length := by
  have hsum : mkTied c0 crest =
      { c0 with
        tiedBeats := some (((c0 :: crest).map
          (fun n => durBeatsD n.duration)).sum),
        duration := beatsToDuration (((c0 :: crest).map
          (fun n => durBeatsD n.duration)).sum),
        tied := true } := by
    simp [mkTied]
  have hmain : procTies (tieLink arc spacing) (pre ++ (c0 :: crest) ++ post) =
      procTies (tieLink arc spacing) pre ++
        (mkTied c0 crest :: procTies (tieLink arc spacing) post) := by
    have h1 : pre ++ (c0 :: crest) ++ post = pre ++ (c0 :: (crest ++ post)) := by
      simp
    rw [h1]
    rw [procTies_append_blocked (tieLink arc spacing) pre.length pre
      (c0 :: (crest ++ post)) (le_refl _)
      (by intro lp hlp r0 hr0
          simp only [List.head?_cons, Option.mem_def, Option.some.injEq] at hr0
          subst hr0
          exact hpre lp hlp)]
    rw [procTies_cons_chain (tieLink arc spacing) c0 crest post hcr hlinks hpost]
  constructor
  · rw [hmain, hsum]
  · rw [hmain]
    simp only [List.length_append, List.length_cons]
    omega

/-- C2 witness: three tied quarter notes (x = 0, 20, 40, spacing 10,
arcs found everywhere) collapse to one note with `tiedBeats = 3` and
duration label `dotted_half`. -/
theorem detectTies_chain_collapse_witness :
    ([(⟨20, 60, .quarter, none, false⟩ : TNote),
        ⟨40, 60, .quarter, none, false⟩] ≠ []) ∧
    (procTies (tieLink (fun _ _ => true) 10)
        ([] ++ ((⟨0, 60, .quarter, none, false⟩ : TNote) ::
          [⟨20, 60, .quarter, none, false⟩,
           ⟨40, 60, .quarter, none, false⟩]) ++ []) =
      procTies (tieLink (fun _ _ => true) 10) [] ++
        ({ (⟨0, 60, .quarter, none, false⟩ : TNote) with
            tiedBeats := some ((((⟨0, 60, .quarter, none, false⟩ : TNote) ::
              [⟨20, 60, .quarter, none, false⟩,
               ⟨40, 60, .quarter, none, false⟩]).map
              (fun n => durBeatsD n.duration)).sum),
            duration := beatsToDuration ((((⟨0, 60, .quarter, none,
              false⟩ : TNote) ::
              [⟨20, 60, .quarter, none, false⟩,
               ⟨40, 60, .quarter, none, false⟩]).map
              (fun n => durBeatsD n.duration)).sum),
            tied := true } :: procTies (tieLink (fun _ _ => true) 10) []) ∧
      (procTies (tieLink (fun _ _ => true) 10)
        ([] ++ ((⟨0, 60, .quarter, none, false⟩ : TNote) ::
          [⟨20, 60, .quarter, none, false⟩,
           ⟨40, 60, .quarter, none, false⟩]) ++ [])).length =
        (procTies (tieLink (fun _ _ => true) 10) ([] : List TNote)).length +
          1 + (procTies (tieLink (fun _ _ => true) 10)
            ([] : List TNote)).length) ∧
    ((((⟨0, 60, .quarter, none, false⟩ : TNote) ::
        [⟨20, 60, .quarter, none, false⟩,
         ⟨40, 60, .quarter, none, false⟩]).map
        (fun n => durBeatsD n.duration)).sum = 3 ∧
      beatsToDuration 3 = .dottedHalf) :=
  ⟨by decide,
    detectTies_chain_collapse (fun _ _ => true) 10 []
      ⟨0, 60, .quarter, none, false⟩
      [⟨20, 60, .quarter, none, false⟩, ⟨40, 60, .quarter, none, false⟩] []
      (by decide)
      (List.Chain.cons (by decide) (List.Chain.cons (by decide)
        List.Chain.nil))
      (by intro lp hlp; simp at hlp)
      (by intro p0 hp0; simp at hp0),
    by
      constructor
      · decide
      · decide⟩

/- ───────────── C3 and C6: combined audio rendering ───────────── -/

/-- A score event as consumed by `createCombinedAudio` (HomeScreen.js,
SoundFont version): `staffIndex` is `none` when `Number.isFinite`
fails, `midiNote` is `none` when absent (`?? 60` applies), `isRest`
is `type === 'rest'`. -/
structure Ev where
  x : ℚ
  y : ℚ
  staffIndex : Option ℕ
  midiNote : Option ℤ
  duration : Duration
  tiedBeats : Option ℚ
  isRest : Bool
deriving DecidableEq, Repr

/-- `n.tiedBeats || durationMap[n.duration] || 1` with JS falsy
semantics. -/
def getBeats (n : Ev) : ℚ :=
  match n.tiedBeats with
  | some t => if t = 0 then durBeatsD n.duration else t
  | none => durBeatsD n.duration

/-- `Number.isFinite(staffIndex) ? staffIndex : 999` (sort key). -/
def staffKey (n : Ev) : ℕ := n.staffIndex.getD 999

/-- Pair consecutive staff indices into systems
(`for (j = 0; j < staffIndices.length; j += 2) …`). -/
def pairUp : List ℕ → ℕ → List (ℕ × ℕ)
  | [], _ => []
  | [a], k => [(a, k)]
  | a :: b :: t, k => (a, k) :: (b, k) :: pairUp t (k + 1)

/-- The `staffToSystem` map as an association list; a prepended entry
shadows older ones, so `List.lookup` has `Map.get`-after-`Map.set`
semantics. -/
def buildStaffToSystem (meta : Option (List (List ℕ)))
    (sorted : List Ev) : List (ℕ × ℕ) :=
  let fallback :=
    pairUp (sortByJS (fun a b => decide (a ≤ b))
      (dedupKeepFirst (sorted.filterMap (·.staffIndex)))) 0
  match meta with
  | some sys =>
    if sys ≠ [] then
      sys.enum.foldl (fun acc p =>
        p.2.foldl (fun acc2 si => (si, p.1) :: acc2) acc) []
    else fallback
  | none => fallback

/-- `staffToSystem.get(note.staffIndex) ?? 0`. -/
def sysOf (m : List (ℕ × ℕ)) (n : Ev) : ℕ :=
  match n.staffIndex with
  | some si => (m.lookup si).getD 0
  | none => 0

/-- System keys in the order `[...systemNotes.entries()].sort((a, b) =>
a[0] - b[0])` iterates them: ascending numerically. -/
def sysKeys (m : List (ℕ × ℕ)) (sorted : List Ev) : List ℕ :=
  sortByJS (fun a b => decide (a ≤ b))
    (dedupKeepFirst (sorted.map (sysOf m)))

/-- The events pushed for one system key, in `sorted` order. -/
def notesOfSys (m : List (ℕ × ℕ)) (sorted : List Ev) (k : ℕ) : List Ev :=
  sorted.filter (fun n => sysOf m n == k)

/-- The beat-column grouping walk: events within 8 px of the column
anchor (its first event) join the column. -/
def groupColsGo (anchor : Ev) (col : List Ev) : List Ev → List (List Ev)
  | [] => [col]
  | curr :: rest =>
    if |curr.x - anchor.x| < 8 then groupColsGo anchor (col ++ [curr]) rest
    else col :: groupColsGo curr [curr] rest

def groupCols : List Ev → List (List Ev)
  | [] => []
  | h :: t => groupColsGo h [h] t

/-- One timing-map entry `{time, x, y, staffIndex, isRest}`. -/
structure TimingEntry where
  time : ℚ
  x : ℚ
  y : ℚ
  staffIndex : Option ℕ
  isRest : Bool
deriving DecidableEq, Repr

/-- One render task `{offsetSamples, notes: [{midiNote, dur}]}`. -/
structure ChordMeta where
  offsetSamples : ℕ
  notes : List (ℤ × ℚ)
deriving DecidableEq, Repr

/-- `Math.min(...col.map(getBeats))`; columns are always nonempty, the
`[]` case (JS `Infinity`) is a harmless default. -/
def minBeats (col : List Ev) : ℚ :=
  match col.map getBeats with
  | [] => 1
  | b :: bs => bs.foldl min b

/-- The per-column body of the layout loop: emit a timing entry at the
current `globalTime`, emit a render task when the column has real
notes, and advance by the minimal beat count times `secondsPerBeat`. -/
def colStep (spb : ℚ) (s : ℚ × List TimingEntry × List ChordMeta)
    (col : List Ev) : ℚ × List TimingEntry × List ChordMeta :=
  let realNotes := col.filter (fun n => !n.isRest)
  let isAllRests := realNotes = []
  let advance := minBeats col * spb
  let ax := (col.foldl (fun acc n => acc + n.x) (0 : ℚ)) / col.length
  let ay := (col.foldl (fun acc n => acc + n.y) (0 : ℚ)) / col.length
  let si := match col with
    | [] => none
    | h :: _ => h.staffIndex
  let tm := s.2.1 ++ [⟨s.1, ax, ay, si, decide isAllRests⟩]
  let cm :=
    if isAllRests then s.2.2
    else s.2.2 ++ [⟨(Int.floor (s.1 * 44100)).toNat,
      realNotes.map (fun n => (n.midiNote.getD 60, getBeats n * spb))⟩]
  (s.1 + advance, tm, cm)

/-- All beat columns, system by system in ascending system order, each
system's events sorted by `x`. -/
def allColumns (m : List (ℕ × ℕ)) (sorted : List Ev) : List (List Ev) :=
  (sysKeys m sorted).flatMap (fun k =>
    groupCols (sortByJS (fun a b => decide (a.x ≤ b.x)) (notesOfSys m sorted k)))

/-- The layout phase of `createCombinedAudio`: final `globalTime`, the
timing map, and the render tasks. -/
def audioLayout (notes : List Ev) (tempo : ℚ)
    (meta : Option (List (List ℕ))) : ℚ × List TimingEntry × List ChordMeta :=
  let spb := 60 / tempo
  let sorted := sortByJS (fun a b =>
    decide (if staffKey a = staffKey b then a.x ≤ b.x
      else staffKey a ≤ staffKey b)) notes
  let m := buildStaffToSystem meta sorted
  (allColumns m sorted).foldl (colStep spb) (0, [], [])

/-- Mix `noteAudio` into `master` starting at `start`, clipping to the
master length (`len = Math.min(noteAudio.length, totalSamples - start)`). -/
def addInto (master : List ℚ) (start : ℕ) (noteAudio : List ℚ) : List ℚ :=
  master.mapIdx (fun i v =>
    if start ≤ i ∧ i - start < noteAudio.length then
      v + noteAudio.getD (i - start) 0
    else v)

/-- Render and add every note of one chord (render task). -/
def mixChord (synth : ℤ → ℚ → List ℚ) (master : List ℚ) (cm : ChordMeta) :
    List ℚ :=
  cm.notes.foldl (fun m p => addInto m cm.offsetSamples (synth p.1 p.2)) master

/-- Result record of `createCombinedAudio`: `wav = none` models the
`fileUri: ''` early return (no file written); `wav = some bytes` models
a written temp file holding `bytes`. -/
structure CombinedAudio where
  wav : Option (List ℕ)
  timingMap : List TimingEntry
  totalDuration : ℚ
deriving DecidableEq, Repr

/-- `AudioPlaybackService.createCombinedAudio` (HomeScreen.js,
SoundFont version), shallowly embedded.  `synth` abstracts
`generatePianoNote(midiNote, duration)` (SoundFont samples or harmonic
synthesis — transcendental, so it enters as an oracle); sanitation of
non-finite mix values is the identity in the `ℚ` model. -/
def combinedAudio (synth : ℤ → ℚ → List ℚ) (notes : List Ev)
    (meta : Option (List (List ℕ))) (tempo : ℚ) : CombinedAudio :=
  if notes = [] then ⟨none, [], 0⟩
  else
    let layout := audioLayout notes tempo meta
    let globalTime := layout.1
    let totalSamples := (Int.floor ((globalTime + 0.3) * 44100)).toNat
    let master0 := List.replicate totalSamples (0 : ℚ)
    let master1 := layout.2.2.foldl (mixChord synth) master0
    let peak := master1.foldl (fun p v => max p |v|) 0
    let master2 := if peak > 1 then master1.map (fun v => v / peak) else master1
    ⟨some (writeWav master2), layout.2.1, globalTime⟩

theorem mem_insertStable {α : Type} (le : α → α → Bool) (a x : α)
    (l : List α) (h : x ∈ insertStable le a l) : x = a ∨ x ∈ l := by
  induction l with
  | nil =>
    simp [insertStable] at h
    exact Or.inl h
  | cons b t ih =>
    rw [insertStable] at h
    by_cases hle : le b a
    · rw [if_pos hle] at h
      rcases List.mem_cons.mp h with h1 | h1
      · exact Or.inr (h1 ▸ List.mem_cons_self b t)
      · rcases ih h1 with h2 | h2
        · exact Or.inl h2
        · exact Or.inr (List.mem_cons_of_mem b h2)
    · rw [if_neg hle] at h
      rcases List.mem_cons.mp h with h1 | h1
      · exact Or.inl h1
      · exact Or.inr h1

theorem sortByJS_subset {α : Type} (le : α → α → Bool) (l : List α) :
    ∀ x ∈ sortByJS le l, x ∈ l := by
  have key : ∀ (l2 : List α) (acc : List α) (x : α),
      x ∈ l2.foldl (fun acc a => insertStable le a acc) acc →
      x ∈ acc ∨ x ∈ l2 := by
    intro l2
    induction l2 with
    | nil => intro acc x h; exact Or.inl h
    | cons b t ih =>
      intro acc x h
      rw [List.foldl_cons] at h
      rcases ih (insertStable le b acc) x h with h1 | h1
      · rcases mem_insertStable le b x acc h1 with h2 | h2
        · exact Or.inr (h2 ▸ List.mem_cons_self b t)
        · exact Or.inl h2
      · exact Or.inr (List.mem_cons_of_mem b h1)
  intro x hx
  rcases key l [] x hx with h | h
  · simp at h
  · exact h

theorem groupColsGo_mem (anchor : Ev) (col : List Ev) (l : List Ev) :
    ∀ c ∈ groupColsGo anchor col l, ∀ e ∈ c, e ∈ col ∨ e ∈ l := by
  induction l generalizing anchor col with
  | nil =>
    intro c hc e he
    simp only [groupColsGo, List.mem_singleton] at hc
    exact Or.inl (hc ▸ he)
  | cons curr rest ih =>
    intro c hc e he
    rw [groupColsGo] at hc
    by_cases hx : |curr.x - anchor.x| < 8
    · rw [if_pos hx] at hc
      rcases ih anchor (col ++ [curr]) c hc e he with h1 | h1
      · rcases List.mem_append.mp h1 with h2 | h2
        · exact Or.inl h2
        · simp only [List.mem_singleton] at h2
          exact Or.inr (h2 ▸ List.mem_cons_self curr rest)
      · exact Or.inr (List.mem_cons_of_mem curr h1)
    · rw [if_neg hx] at hc
      rcases List.mem_cons.mp hc with h1 | h1
      · exact Or.inl (h1 ▸ he)
      · rcases ih curr [curr] c h1 e he with h2 | h2
        · simp only [List.mem_singleton] at h2
          exact Or.inr (h2 ▸ List.mem_cons_self curr rest)
        · exact Or.inr (List.mem_cons_of_mem curr h2)

theorem groupCols_mem (l : List Ev) :
    ∀ c ∈ groupCols l, ∀ e ∈ c, e ∈ l := by
  match l with
  | [] => intro c hc; simp [groupCols] at hc
  | h :: t =>
    intro c hc e he
    rw [groupCols] at hc
    rcases groupColsGo_mem h [h] t c hc e he with h1 | h1
    · simp only [List.mem_singleton] at h1
      exact h1 ▸ List.mem_cons_self h t
    · exact List.mem_cons_of_mem h h1

theorem getBeats_pos (n : Ev)
    (h : ∀ t, n.tiedBeats = some t → 0 < t) : 0 < getBeats n := by
  unfold getBeats
  cases ht : n.tiedBeats with
  | none => exact durBeatsD_pos n.duration
  | some t =>
    show 0 < if t = 0 then durBeatsD n.duration else t
    by_cases h0 : t = 0
    · rw [if_pos h0]
      exact durBeatsD_pos n.duration
    · rw [if_neg h0]
      exact h t ht

theorem foldl_min_pos (b : ℚ) (bs : List ℚ) (hb : 0 < b)
    (hbs : ∀ x ∈ bs, 0 < x) : 0 < bs.foldl min b := by
  induction bs generalizing b with
  | nil => exact hb
  | cons c t ih =>
    rw [List.foldl_cons]
    exact ih (min b c) (lt_min hb (hbs c (List.mem_cons_self c t)))
      (fun x hx => hbs x (List.mem_cons_of_mem c hx))

theorem minBeats_pos (col : List Ev)
    (h : ∀ e ∈ col, 0 < getBeats e) : 0 < minBeats col := by
  unfold minBeats
  cases col with
  | nil => norm_num
  | cons e t =>
    simp only [List.map_cons]
    exact foldl_min_pos _ _ (h e (List.mem_cons_self e t))
      (fun x hx => by
        obtain ⟨e2, he2, hx2⟩ := List.mem_map.mp hx
        exact hx2 ▸ h e2 (List.mem_cons_of_mem e he2))

theorem lastOr_mem {α : Type} (t : List α) (a : α) : lastOr t a ∈ a :: t := by
  induction t generalizing a with
  | nil => simp [lastOr]
  | cons b t2 ih =>
    rw [lastOr]
    exact List.mem_cons_of_mem a (ih b)

theorem colStep_fold_mono (spb : ℚ) (hspb : 0 ≤ spb) :
    ∀ (cols : List (List Ev)) (t0 : ℚ) (tm0 : List TimingEntry)
      (cm0 : List ChordMeta),
    (∀ col ∈ cols, 0 ≤ minBeats col) →
    List.Chain' (fun a b => a.time ≤ b.time) tm0 →
    (∀ e ∈ tm0, e.time ≤ t0) →
    List.Chain' (fun a b => a.time ≤ b.time)
      (cols.foldl (colStep spb) (t0, tm0, cm0)).2.1 ∧
    (∀ e ∈ (cols.foldl (colStep spb) (t0, tm0, cm0)).2.1,
      e.time ≤ (cols.foldl (colStep spb) (t0, tm0, cm0)).1) := by
  intro cols
  induction cols with
  | nil =>
    intro t0 tm0 cm0 _ hchain hbound
    exact ⟨hchain, hbound⟩
  | cons col cols ih =>
    intro t0 tm0 cm0 hcols hchain hbound
    rw [List.foldl_cons]
    have hadv : 0 ≤ minBeats col * spb :=
      mul_nonneg (hcols col (List.mem_cons_self col cols)) hspb
    have hstep1 : (colStep spb (t0, tm0, cm0) col).1 =
        t0 + minBeats col * spb := rfl
    have hstep2 : ∃ e : TimingEntry, e.time = t0 ∧
        (colStep spb (t0, tm0, cm0) col).2.1 = tm0 ++ [e] :=
      ⟨_, rfl, rfl⟩
    obtain ⟨entry, het, htm⟩ := hstep2
    have hchain2 : List.Chain' (fun a b => a.time ≤ b.time) (tm0 ++ [entry]) := by
      rw [List.chain'_append]
      refine ⟨hchain, List.chain'_singleton entry, ?_⟩
      intro x hx y hy
      simp only [List.head?_cons, Option.mem_def, Option.some.injEq] at hy
      subst hy
      rw [het]
      cases tm0 with
      | nil => simp at hx
      | cons h0 t0l =>
        rw [getLast?_eq_lastOr] at hx
        simp only [Option.mem_def, Option.some.injEq] at hx
        subst hx
        exact hbound _ (lastOr_mem t0l h0)
    have hbound2 : ∀ e ∈ tm0 ++ [entry],
        e.time ≤ t0 + minBeats col * spb := by
      intro e he
      rcases List.mem_append.mp he with h1 | h1
      · linarith [hbound e h1]
      · simp only [List.mem_singleton] at h1
        subst h1
        rw [het]
        linarith
    have hres := ih (t0 + minBeats col * spb) (tm0 ++ [entry])
      (colStep spb (t0, tm0, cm0) col).2.2
      (fun c hc => hcols c (List.mem_cons_of_mem col hc)) hchain2 hbound2
    have heq : (colStep spb (t0, tm0, cm0) col) =
        (t0 + minBeats col * spb, tm0 ++ [entry],
          (colStep spb (t0, tm0, cm0) col).2.2) := by
      rw [← hstep1, ← htm]
    rw [heq]
    exact hres

/-- C3: the timing map produced by `createCombinedAudio` is
non-decreasing in `time`, for every event list, system metadata and
positive tempo (each column advance is min-beats-in-column ×
`secondsPerBeat`, positive for every duration of the table; `tiedBeats`
values, being sums of table beats, are positive when present). -/
theorem combinedAudio_timing_monotone (synth : ℤ → ℚ → List ℚ)
    (notes : List Ev) (meta : Option (List (List ℕ))) (tempo : ℚ)
    (htempo : 0 < tempo)
    (htied : ∀ n ∈ notes, ∀ t, n.tiedBeats = some t → 0 < t) :
    List.Chain' (fun a b => a.time ≤ b.time)
      (combinedAudio synth notes meta tempo).timingMap := by
  unfold combinedAudio
  by_cases hn : notes = []
  · rw [if_pos hn]
    exact List.chain'_nil
  · rw [if_neg hn]
    simp only
    unfold audioLayout
    have hspb : 0 ≤ 60 / tempo := le_of_lt (by positivity)
    have hcols : ∀ col ∈ allColumns
        (buildStaffToSystem meta (sortByJS (fun a b =>
          decide (if staffKey a = staffKey b then a.x ≤ b.x
            else staffKey a ≤ staffKey b)) notes))
        (sortByJS (fun a b =>
          decide (if staffKey a = staffKey b then a.x ≤ b.x
            else staffKey a ≤ staffKey b)) notes),
        0 ≤ minBeats col := by
      intro col hcol
      apply le_of_lt
      apply minBeats_pos
      intro e he
      apply getBeats_pos
      intro t ht
      have hmem : e ∈ notes := by
        obtain ⟨k, _, hk⟩ := List.mem_flatMap.mp hcol
        have h1 := groupCols_mem _ col hk e he
        have h2 := sortByJS_subset _ _ e h1
        have h3 := List.mem_filter.mp h2
        exact sortByJS_subset _ _ e h3.1
      exact htied e hmem t ht
    exact (colStep_fold_mono (60 / tempo) hspb _ 0 [] [] hcols
      List.chain'_nil (by simp)).1

/-- C3 witness: two concrete events at distinct columns. -/
theorem combinedAudio_timing_monotone_witness :
    ((0:ℚ) < 120) ∧
    List.Chain' (fun a b => a.time ≤ b.time)
      (combinedAudio (fun _ _ => [])
        [⟨0, 0, some 0, some 60, .quarter, none, false⟩,
         ⟨100, 0, some 0, some 62, .half, none, false⟩] none 120).timingMap :=
  ⟨by norm_num,
    combinedAudio_timing_monotone (fun _ _ => [])
      [⟨0, 0, some 0, some 60, .quarter, none, false⟩,
       ⟨100, 0, some 0, some 62, .half, none, false⟩] none 120
      (by norm_num)
      (by
        intro n hn t ht
        rcases List.mem_cons.mp hn with h | h
        · subst h; simp at ht
        · rcases List.mem_cons.mp h with h2 | h2
          · subst h2; simp at ht
          · simp at h2)⟩

/-- C6 counterexample: for an empty score `createCombinedAudio` returns
immediately with `fileUri: ''` — no WAV file is written at all — along
with the empty timing map and `totalDuration = 0`.  The claimed
0.1-second silent WAV (`wav = some …`) is not produced: `wav = none`. -/
theorem combinedAudio_empty_counterexample :
    combinedAudio (fun _ _ => []) [] none 120 =
      ⟨none, [], 0⟩ ∧
    (combinedAudio (fun _ _ => []) [] none 120).wav = none := by
  constructor
  · rw [combinedAudio, if_pos rfl]
  · rw [combinedAudio, if_pos rfl]

theorem flatMap_replicate_zero_sample (n : ℕ) :
    (List.replicate n (0:ℚ)).flatMap (fun s => i16le (sampleToI16 s)) =
      List.replicate (2 * n) (0:ℕ) := by
  induction n with
  | zero => simp
  | succ m ih =>
    rw [List.replicate_succ, List.flatMap_cons, ih]
    have h1 : i16le (sampleToI16 0) = [0, 0] := by decide
    rw [h1]
    have h2 : 2 * (m + 1) = (2 * m) + 1 + 1 := by omega
    rw [h2, List.replicate_succ, List.replicate_succ]
    rfl

/-- C6 (amended): with no notes, `createCombinedAudio` returns an empty
`fileUri` (no WAV bytes at all), an empty timing map and
`totalDuration = 0`; the 0.1-second silent WAV lives one level down:
`writeWavToFile`, if it is ever handed an empty buffer, substitutes
`⌊44100 × 0.1⌋ = 4410` zero samples (8820 zero data bytes). -/
theorem combinedAudio_empty_behavior (synth : ℤ → ℚ → List ℚ)
    (meta : Option (List (List ℕ))) (tempo : ℚ) :
    combinedAudio synth [] meta tempo = ⟨none, [], 0⟩ ∧
    writeWav [] = wavHeaderSpec 8820 ++ List.replicate 8820 0 := by
  constructor
  · rw [combinedAudio, if_pos rfl]
  · have hfloor : Nat.floor ((44100:ℚ) * 0.1) = 4410 := by decide
    rw [writeWav, wavHeaderSpec]
    rw [if_pos rfl, hfloor, flatMap_replicate_zero_sample]
    simp only [List.length_replicate]

/- ───────────── C5: SoundFont zone construction ───────────── -/

/-- An `igen` record: 16-bit operator, signed 16-bit amount. -/
structure GenRec where
  oper : ℕ
  amount : ℤ
deriving DecidableEq, Repr

/-- An `ibag` record. -/
structure BagRec where
  genIndex : ℕ
  modIndex : ℕ
deriving DecidableEq, Repr

/-- An `inst` record. -/
structure InstRec where
  name : String
  bagIndex : ℕ
deriving DecidableEq, Repr

/-- An `shdr` record (46 bytes; `end` is a Lean keyword, spelled
`endPos`). -/
structure SampleHeader where
  name : String
  start : ℕ
  endPos : ℕ
  startLoop : ℕ
  endLoop : ℕ
  sampleRate : ℕ
  originalPitch : ℕ
  pitchCorrection : ℤ
  sampleLink : ℕ
  sampleType : ℕ
deriving DecidableEq, Repr

/-- The flat generator object `g` of `parseGens`, with its sentinel
initial values (`-1`, `0`, `-32768`). -/
structure RawGens where
  keyLo : ℤ
  keyHi : ℤ
  velLo : ℤ
  velHi : ℤ
  sampleIndex : ℤ
  rootKey : ℤ
  fineTune : ℤ
  coarseTune : ℤ
  startOffset : ℤ
  endOffset : ℤ
  startLoopOffset : ℤ
  endLoopOffset : ℤ
  startCoarseOffset : ℤ
  endCoarseOffset : ℤ
  startLoopCoarseOffset : ℤ
  endLoopCoarseOffset : ℤ
  sampleMode : ℤ
  volEnvAttack : ℤ
  volEnvDecay : ℤ
  volEnvSustain : ℤ
  volEnvRelease : ℤ
deriving DecidableEq, Repr

def defaultRawGens : RawGens :=
  ⟨-1, -1, -1, -1, -1, -1, 0, 0, 0, 0, 0, 0, 0, 0, 0, 0, -1,
   -32768, -32768, -32768, -32768⟩

/-- One `switch (gen.oper)` step of `parseGens`.  `x & 0xFF` is
`Int.emod x 256`; `(x >> 8) & 0xFF` is the arithmetic shift
`Int.fdiv x 256` masked; `x & 0xFFFF` is `Int.emod x 65536`;
`x & 0x3` is `Int.emod x 4`. -/
def applyGen (g : RawGens) (gen : GenRec) : RawGens :=
  match gen.oper with
  | 43 => { g with keyLo := gen.amount.emod 256,
                   keyHi := (gen.amount.fdiv 256).emod 256 }
  | 44 => { g with velLo := gen.amount.emod 256,
                   velHi := (gen.amount.fdiv 256).emod 256 }
  | 53 => { g with sampleIndex := gen.amount.emod 65536 }
  | 58 => { g with rootKey := gen.amount }
  | 52 => { g with fineTune := gen.amount }
  | 51 => { g with coarseTune := gen.amount }
  | 0 => { g with startOffset := gen.amount }
  | 1 => { g with endOffset := gen.amount }
  | 2 => { g with startLoopOffset := gen.amount }
  | 3 => { g with endLoopOffset := gen.amount }
  | 4 => { g with startCoarseOffset := gen.amount }
  | 12 => { g with endCoarseOffset := gen.amount }
  | 45 => { g with startLoopCoarseOffset := gen.amount }
  | 50 => { g with endLoopCoarseOffset := gen.amount }
  | 54 => { g with sampleMode := gen.amount.emod 4 }
  | 34 => { g with volEnvAttack := gen.amount }
  | 36 => { g with volEnvDecay := gen.amount }
  | 37 => { g with volEnvSustain := gen.amount }
  | 38 => { g with volEnvRelease := gen.amount }
  | _ => g

/-- `parseGens(genLo, genHi)`: fold the recognized generators of the
index range onto the defaults. -/
def parseGens (iGens : List GenRec) (lo hi : ℕ) : RawGens :=
  (List.range' lo (hi - lo)).foldl
    (fun g i => applyGen g (iGens.getD i ⟨0, 0⟩)) defaultRawGens

/-- JS `a || b` on integers (`0` falsy). -/
def jsOrZ (a b : ℤ) : ℤ := if a ≠ 0 then a else b

/-- `mergeWithGlobal`: zone value if set, else global, else SF2
default. -/
def mergeWithGlobal (zone global : RawGens) : RawGens :=
  { keyLo := if zone.keyLo ≥ 0 then zone.keyLo
      else if global.keyLo ≥ 0 then global.keyLo else 0,
    keyHi := if zone.keyHi ≥ 0 then zone.keyHi
      else if global.keyHi ≥ 0 then global.keyHi else 127,
    velLo := if zone.velLo ≥ 0 then zone.velLo
      else if global.velLo ≥ 0 then global.velLo else 0,
    velHi := if zone.velHi ≥ 0 then zone.velHi
      else if global.velHi ≥ 0 then global.velHi else 127,
    sampleIndex := zone.sampleIndex,
    rootKey := if zone.rootKey ≥ 0 then zone.rootKey else global.rootKey,
    fineTune := jsOrZ zone.fineTune (jsOrZ global.fineTune 0),
    coarseTune := jsOrZ zone.coarseTune (jsOrZ global.coarseTune 0),
    startOffset := jsOrZ zone.startOffset (jsOrZ global.startOffset 0),
    endOffset := jsOrZ zone.endOffset (jsOrZ global.endOffset 0),
    startLoopOffset :=
      jsOrZ zone.startLoopOffset (jsOrZ global.startLoopOffset 0),
    endLoopOffset := jsOrZ zone.endLoopOffset (jsOrZ global.endLoopOffset 0),
    startCoarseOffset :=
      jsOrZ zone.startCoarseOffset (jsOrZ global.startCoarseOffset 0),
    endCoarseOffset :=
      jsOrZ zone.endCoarseOffset (jsOrZ global.endCoarseOffset 0),
    startLoopCoarseOffset := jsOrZ zone.startLoopCoarseOffset
      (jsOrZ global.startLoopCoarseOffset 0),
    endLoopCoarseOffset := jsOrZ zone.endLoopCoarseOffset
      (jsOrZ global.endLoopCoarseOffset 0),
    sampleMode := if zone.sampleMode ≥ 0 then zone.sampleMode
      else if global.sampleMode ≥ 0 then global.sampleMode else 0,
    volEnvAttack := if zone.volEnvAttack > -32768 then zone.volEnvAttack
      else if global.volEnvAttack > -32768 then global.volEnvAttack
      else -12000,
    volEnvDecay := if zone.volEnvDecay > -32768 then zone.volEnvDecay
      else if global.volEnvDecay > -32768 then global.volEnvDecay
      else -12000,
    volEnvSustain := if zone.volEnvSustain > -32768 then zone.volEnvSustain
      else if global.volEnvSustain > -32768 then global.volEnvSustain
      else 0,
    volEnvRelease := if zone.volEnvRelease > -32768 then zone.volEnvRelease
      else if global.volEnvRelease > -32768 then global.volEnvRelease
      else -12000 }

/-- A built zone (`_buildZones` output element). -/
structure SFZone where
  keyLo : ℤ
  keyHi : ℤ
  velLo : ℤ
  velHi : ℤ
  sampleIndex : ℤ
  instrumentIndex : ℕ
  rootKey : ℤ
  tuning : ℤ
  startOffset : ℤ
  endOffset : ℤ
  startLoop : ℤ
  endLoop : ℤ
  sampleRate : ℕ
  loopMode : ℤ
  volAttack : ℚ
  volDecay : ℚ
  volSustain : ℚ
  volRelease : ℚ
deriving DecidableEq, Repr

def dummySampleHeader : SampleHeader := ⟨"", 0, 0, 0, 0, 0, 0, 0, 0, 0⟩

/-- The core of the inner `for (bagIdx = startBag; bagIdx < bagHi;
bagIdx++)` loop body of `_buildZones`, from the parsed per-zone
generators: `none` where the loop `continue`s (unusable `sampleID`,
ROM/linked sample). -/
def buildZoneFromGens (pow2 : ℚ → ℚ) (sampleHeaders : List SampleHeader)
    (gbl : RawGens) (instIdx : ℕ) (zoneGens : RawGens) : Option SFZone :=
  if zoneGens.sampleIndex < 0 ∨
      (sampleHeaders.length : ℤ) ≤ zoneGens.sampleIndex then none
  else
    let m := mergeWithGlobal zoneGens gbl
    let sh := sampleHeaders.getD m.sampleIndex.toNat dummySampleHeader
    if sh.sampleType > 1 then none
    else some
      { keyLo := m.keyLo, keyHi := m.keyHi,
        velLo := m.velLo, velHi := m.velHi,
        sampleIndex := m.sampleIndex,
        instrumentIndex := instIdx,
        rootKey := if m.rootKey ≥ 0 then m.rootKey else sh.originalPitch,
        tuning := m.coarseTune * 100 + m.fineTune + sh.pitchCorrection,
        startOffset := sh.start + m.startOffset + m.startCoarseOffset * 32768,
        endOffset := sh.endPos + m.endOffset + m.endCoarseOffset * 32768,
        startLoop := sh.startLoop + m.startLoopOffset +
          m.startLoopCoarseOffset * 32768,
        endLoop := sh.endLoop + m.endLoopOffset +
          m.endLoopCoarseOffset * 32768,
        sampleRate := sh.sampleRate,
        loopMode := m.sampleMode,
        volAttack := pow2 ((m.volEnvAttack : ℚ) / 1200),
        volDecay := pow2 ((m.volEnvDecay : ℚ) / 1200),
        volSustain := max 0 (1 - (m.volEnvSustain : ℚ) / 1000),
        volRelease := pow2 ((m.volEnvRelease : ℚ) / 1200) }

/-- The per-bag zone builder: resolve the generator index range of
`bagIdx` and hand the parsed generators to `buildZoneFromGens`. -/
def buildZoneOne (pow2 : ℚ → ℚ) (iBags : List BagRec) (iGens : List GenRec)
    (sampleHeaders : List SampleHeader) (gbl : RawGens) (instIdx : ℕ)
    (bagIdx : ℕ) : Option SFZone :=
  let genLo := (iBags.getD bagIdx ⟨0, 0⟩).genIndex
  let genHi := if bagIdx + 1 < iBags.length then
      (iBags.getD (bagIdx + 1) ⟨0, 0⟩).genIndex
    else iGens.length
  buildZoneFromGens pow2 sampleHeaders gbl instIdx (parseGens iGens genLo genHi)

/-- `SoundFontService._buildZones`, shallowly embedded.  `pow2`
abstracts the transcendental `Math.pow(2, ·)` of the
timecents-to-seconds conversion; everything else is computed as in the
source.  Out-of-range JS array reads (which the source never guards)
are modelled with `getD` defaults. -/
def buildZones (pow2 : ℚ → ℚ) (instruments : List InstRec)
    (iBags : List BagRec) (iGens : List GenRec)
    (sampleHeaders : List SampleHeader) : List SFZone :=
  (List.range (instruments.length - 1)).flatMap (fun instIdx =>
    let bagLo := (instruments.getD instIdx ⟨"", 0⟩).bagIndex
    let bagHi := (instruments.getD (instIdx + 1) ⟨"", 0⟩).bagIndex
    let firstBagGenLo := (iBags.getD bagLo ⟨0, 0⟩).genIndex
    let firstBagGenHi := if bagLo + 1 < iBags.length then
        (iBags.getD (bagLo + 1) ⟨0, 0⟩).genIndex
      else iGens.length
    let firstBag := parseGens iGens firstBagGenLo firstBagGenHi
    let startBag := if firstBag.sampleIndex < 0 then bagLo + 1 else bagLo
    let gbl := if firstBag.sampleIndex < 0 then firstBag
      else parseGens iGens 0 0
    (List.range' startBag (bagHi - startBag)).filterMap
      (buildZoneOne pow2 iBags iGens sampleHeaders gbl instIdx))
/- ───────────── C10: SoundFont note rendering ───────────── -/

/-- A JavaScript number for the sample renderer: a finite rational, one
of the two infinities, or NaN.  Finite arithmetic is exact (no
overflow); an overflowing `Math.pow` can only enter through the
`pitchRatio` input, which the theorems quantify over. -/
inductive JSNum where
  | fin (q : ℚ)
  | inf
  | ninf
  | nan
deriving DecidableEq, Repr

def jsNeg : JSNum → JSNum
  | .fin q => .fin (-q)
  | .inf => .ninf
  | .ninf => .inf
  | .nan => .nan

def jsAdd : JSNum → JSNum → JSNum
  | .nan, _ => .nan
  | _, .nan => .nan
  | .fin a, .fin b => .fin (a + b)
  | .inf, .ninf => .nan
  | .ninf, .inf => .nan
  | .inf, _ => .inf
  | _, .inf => .inf
  | .ninf, _ => .ninf
  | _, .ninf => .ninf

/-- `a - b = a + (-b)` (exact under IEEE for the sign/NaN bookkeeping
modelled here). -/
def jsSub (a b : JSNum) : JSNum := jsAdd a (jsNeg b)

def jsMul : JSNum → JSNum → JSNum
  | .nan, _ => .nan
  | _, .nan => .nan
  | .fin a, .fin b => .fin (a * b)
  | .inf, .inf => .inf
  | .inf, .ninf => .ninf
  | .ninf, .inf => .ninf
  | .ninf, .ninf => .inf
  | .inf, .fin b => if b = 0 then .nan else if 0 < b then .inf else .ninf
  | .fin a, .inf => if a = 0 then .nan else if 0 < a then .inf else .ninf
  | .ninf, .fin b => if b = 0 then .nan else if 0 < b then .ninf else .inf
  | .fin a, .ninf => if a = 0 then .nan else if 0 < a then .ninf else .inf

def jsDiv : JSNum → JSNum → JSNum
  | .nan, _ => .nan
  | _, .nan => .nan
  | .fin a, .fin b =>
    if b = 0 then (if a = 0 then .nan else if 0 < a then .inf else .ninf)
    else .fin (a / b)
  | .inf, .fin b => if 0 ≤ b then .inf else .ninf
  | .ninf, .fin b => if 0 ≤ b then .ninf else .inf
  | .fin _, .inf => .fin 0
  | .fin _, .ninf => .fin 0
  | .inf, .inf => .nan
  | .inf, .ninf => .nan
  | .ninf, .inf => .nan
  | .ninf, .ninf => .nan

/-- JS `%` (remainder, sign of the dividend):
`a % b = a - b * trunc(a / b)` for finite operands. -/
def jsMod : JSNum → JSNum → JSNum
  | .nan, _ => .nan
  | _, .nan => .nan
  | .fin a, .fin b =>
    if b = 0 then .nan else .fin (a - b * (jsTrunc (a / b) : ℚ))
  | .inf, _ => .nan
  | .ninf, _ => .nan
  | .fin a, .inf => .fin a
  | .fin a, .ninf => .fin a

def jsFloor : JSNum → JSNum
  | .fin q => .fin (Int.floor q)
  | .inf => .inf
  | .ninf => .ninf
  | .nan => .nan

/-- JS `>=`: false whenever either side is NaN. -/
def jsGeB : JSNum → JSNum → Bool
  | .nan, _ => false
  | _, .nan => false
  | .fin a, .fin b => decide (b ≤ a)
  | .inf, _ => true
  | _, .inf => false
  | _, .ninf => true
  | .ninf, _ => false

/-- `Math.min` of two values: NaN-propagating. -/
def jsMin : JSNum → JSNum → JSNum
  | .nan, _ => .nan
  | _, .nan => .nan
  | .fin a, .fin b => .fin (min a b)
  | .inf, x => x
  | x, .inf => x
  | .ninf, _ => .ninf
  | _, .ninf => .ninf

def jsIsFinite : JSNum → Bool
  | .fin _ => true
  | _ => false

/-- `SoundFontService._getSample16`: `none` sample data models the
`!this._sampleData` null check; a negative or too-large index yields 0.
A NaN index passes both comparisons (NaN comparisons are false) and
the resulting `data[NaN]`/`data[2.5]` is `undefined`, which turns into
NaN in the subsequent arithmetic — modelled as `.nan` directly. -/
def jsGetSample16 (sampleData : Option (List ℤ)) (idx : JSNum) : JSNum :=
  match sampleData with
  | none => .fin 0
  | some d =>
    match idx with
    | .ninf => .fin 0
    | .inf => .fin 0
    | .nan => .nan
    | .fin q =>
      if q < 0 then .fin 0
      else if (d.length : ℚ) ≤ q then .fin 0
      else if q.den = 1 then .fin (d.getD q.num.toNat 0)
      else .nan

/-- JS `a || b` on rationals (`0` falsy; the model has no NaN here). -/
def jsOrQ (a b : ℚ) : ℚ := if a ≠ 0 then a else b

/-- Loop-invariant context of the `renderNote` sample loop. -/
structure RenderCtx where
  sampleData : Option (List ℤ)
  pitchRatio : JSNum
  hasLoop : Bool
  smpStart : ℤ
  smpEnd : ℤ
  loopStart : ℤ
  loopEnd : ℤ
  loopLen : ℤ
  velocityFactor : ℚ
  attackSamples : ℕ
  decaySamples : ℕ
  releaseSamples : ℕ
  releaseStart : ℕ
  sustainLevel : ℚ

/-- The ADSR envelope value at output sample `i` (pure `ℚ`: every
divisor is `Math.max(1, …)`-guarded in the source). -/
def envelopeAt (c : RenderCtx) (i : ℕ) : ℚ :=
  if i < c.attackSamples then
    (i : ℚ) / ((max 1 c.attackSamples : ℕ) : ℚ)
  else if i < c.attackSamples + c.decaySamples then
    1 - ((i - c.attackSamples : ℕ) : ℚ) / ((max 1 c.decaySamples : ℕ) : ℚ) *
      (1 - c.sustainLevel)
  else if c.releaseStart ≤ i then
    c.sustainLevel *
      (1 - ((i - c.releaseStart : ℕ) : ℚ) / ((max 1 c.releaseSamples : ℕ) : ℚ))
  else c.sustainLevel

/-- The body of one loop iteration after the read position is fixed:
linear interpolation through the guarded accessor, envelope and
velocity scaling, and the final `Number.isFinite(val) ? val : 0`. -/
def emitSample (c : RenderCtx) (i : ℕ) (readPos : JSNum) : JSNum :=
  let intPos := jsFloor readPos
  let frac := jsSub readPos intPos
  let s0 := jsGetSample16 c.sampleData intPos
  let nextPos :=
    if c.hasLoop && jsGeB (jsAdd intPos (.fin 1)) (.fin c.loopEnd) then
      JSNum.fin c.loopStart
    else jsMin (jsAdd intPos (.fin 1)) (.fin (c.smpEnd - 1))
  let s1 := jsGetSample16 c.sampleData nextPos
  let sampleValue := jsDiv (jsAdd s0 (jsMul (jsSub s1 s0) frac)) (.fin 32768)
  let val := jsMul (jsMul (jsMul sampleValue (.fin (envelopeAt c i)))
    (.fin c.velocityFactor)) (.fin 0.85)
  if jsIsFinite val then val else .fin 0

/-- The `for (i = 0; i < sampleCount; i++)` loop of `renderNote`:
`rem` counts the remaining iterations; the `break` on running past a
non-looping sample leaves the rest of the `Float32Array` at its zero
initialisation. -/
def renderLoop (c : RenderCtx) : ℕ → ℕ → JSNum → List JSNum
  | _, 0, _ => []
  | i, rem + 1, pos =>
    let readPos0 := jsAdd pos (.fin c.smpStart)
    if c.hasLoop && jsGeB readPos0 (.fin c.loopStart) then
      emitSample c i (jsAdd (.fin c.loopStart)
          (jsMod (jsSub readPos0 (.fin c.loopStart)) (.fin c.loopLen))) ::
        renderLoop c (i + 1) rem (jsAdd pos c.pitchRatio)
    else if !c.hasLoop && jsGeB readPos0 (.fin c.smpEnd) then
      List.replicate (rem + 1) (.fin 0)
    else
      emitSample c i readPos0 ::
        renderLoop c (i + 1) rem (jsAdd pos c.pitchRatio)

/-- `SoundFontService.renderNote`, shallowly embedded, after zone
lookup: `zone` is the zone `_findZone` returned (the claim quantifies
over all zones), and `pitchRatio` abstracts
`Math.pow(2, semitones / 12) * (zone.sampleRate / 44100)` — it may be
any JS number, including `Infinity` or `NaN` from an extreme root
key.  A negative `duration` would make `new Float32Array(sampleCount)`
throw in JS; the claim restricts to non-negative durations. -/
def renderNote (sampleData : Option (List ℤ)) (zone : SFZone)
    (pitchRatio : JSNum) (duration velocity : ℚ) : List JSNum :=
  let outputRate : ℕ := 44100
  let sampleCount := Nat.floor ((outputRate : ℚ) * duration)
  let smpStart := zone.startOffset
  let smpEnd := zone.endOffset
  let loopStart := zone.startLoop
  let loopEnd := zone.endLoop
  let loopEnabled := zone.loopMode = 1 ∨ zone.loopMode = 3
  let hasLoop := decide loopEnabled && decide (loopEnd - loopStart ≥ 32) &&
    decide (loopStart ≥ smpStart) && decide (loopEnd ≤ smpEnd)
  let velocityFactor := velocity / 127
  let attackTime := max 0.005 (min (jsOrQ zone.volAttack 0.005) 2)
  let decayTime := max 0.01 (min (jsOrQ zone.volDecay 0.1) 4)
  let sustainLevel := zone.volSustain
  let releaseTime :=
    max 0.02 (min (min (jsOrQ zone.volRelease 0.15) (duration * 0.3)) 2)
  let attackSamples := Nat.floor ((outputRate : ℚ) * attackTime)
  let decaySamples := Nat.floor ((outputRate : ℚ) * decayTime)
  let releaseSamples := Nat.floor ((outputRate : ℚ) * releaseTime)
  let releaseStart := sampleCount - releaseSamples
  let loopLen := if hasLoop then loopEnd - loopStart else 0
  renderLoop
    ⟨sampleData, pitchRatio, hasLoop, smpStart, smpEnd, loopStart, loopEnd,
     loopLen, velocityFactor, attackSamples, decaySamples, releaseSamples,
     releaseStart, sustainLevel⟩
    0 sampleCount (.fin 0)

instance : Inhabited SFZone :=
  ⟨⟨0, 0, 0, 0, 0, 0, 0, 0, 0, 0, 0, 0, 0, 0, 0, 0, 0, 0⟩⟩

/-- C5 counterexample: a one-instrument SoundFont whose only sample
header has `start = 100 > end = 50` parses into exactly one zone with
`startOffset = 100`, `endOffset = 50`: `_buildZones` never validates
`startOffset < endOffset`, nor `endOffset ≤ samplePool.len()` (here a
pool of length 0). -/
theorem buildZones_bounds_counterexample :
    ((buildZones (fun _ => 1) [⟨"i", 0⟩, ⟨"", 1⟩] [⟨0, 0⟩, ⟨1, 0⟩]
        [⟨53, 0⟩] [⟨"s", 100, 50, 0, 0, 44100, 60, 0, 0, 0⟩]).map
      (fun z => (z.startOffset, z.endOffset))) = [(100, 50)] ∧
    ¬ ((100 : ℤ) < 50) ∧
    ¬ ((50 : ℤ) ≤ (([] : List ℤ).length : ℤ)) := by
  refine ⟨by decide, by decide, by decide⟩

theorem buildZoneFromGens_guarantees (pow2 : ℚ → ℚ)
    (sampleHeaders : List SampleHeader) (gbl : RawGens) (instIdx : ℕ)
    (zoneGens : RawGens) (z : SFZone)
    (hf : buildZoneFromGens pow2 sampleHeaders gbl instIdx zoneGens =
      some z) :
    0 ≤ z.sampleIndex ∧ z.sampleIndex < sampleHeaders.length ∧
      (sampleHeaders.getD z.sampleIndex.toNat dummySampleHeader).sampleType
        ≤ 1 := by
  unfold buildZoneFromGens at hf
  dsimp only at hf
  split at hf
  · exact absurd hf (by simp)
  · next h1 =>
    split at hf
    · exact absurd hf (by simp)
    · next h2 =>
      push_neg at h1
      simp only [Option.some.injEq] at hf
      subst hf
      have hm : (mergeWithGlobal zoneGens gbl).sampleIndex =
          zoneGens.sampleIndex := rfl
      dsimp only
      rw [hm]
      rw [hm] at h2
      exact ⟨h1.1, h1.2, by omega⟩

/-- C5 (amended): SF2 zone construction performs no bounds validation
on the merged offsets — `zone.startOffset < zone.endOffset ≤ pool
length` can fail.  What every built zone does guarantee is that its
`sampleIndex` refers to a parsed sample header of a usable type
(`sampleType ≤ 1`); out-of-range sample positions are only neutralised
at read time, where the guarded accessor `_getSample16` returns 0. -/
theorem buildZones_no_bounds_validation (pow2 : ℚ → ℚ)
    (instruments : List InstRec) (iBags : List BagRec)
    (iGens : List GenRec) (sampleHeaders : List SampleHeader) (z : SFZone)
    (hz : z ∈ buildZones pow2 instruments iBags iGens sampleHeaders) :
    (0 ≤ z.sampleIndex ∧ z.sampleIndex < sampleHeaders.length ∧
      (sampleHeaders.getD z.sampleIndex.toNat dummySampleHeader).sampleType
        ≤ 1) ∧
    (∀ (d : List ℤ) (i : ℤ), (i < 0 ∨ (d.length : ℤ) ≤ i) →
      jsGetSample16 (some d) (.fin i) = .fin 0) := by
  constructor
  · unfold buildZones at hz
    obtain ⟨instIdx, _, hz2⟩ := List.mem_flatMap.mp hz
    dsimp only at hz2
    obtain ⟨bagIdx, _, hf⟩ := List.mem_filterMap.mp hz2
    unfold buildZoneOne at hf
    exact buildZoneFromGens_guarantees pow2 sampleHeaders _ instIdx _ z hf
  · intro d i hi
    unfold jsGetSample16
    dsimp only
    rcases hi with h | h
    · rw [if_pos (by exact_mod_cast h)]
    · by_cases hneg : (i : ℚ) < 0
      · rw [if_pos hneg]
      · rw [if_neg hneg, if_pos (by exact_mod_cast h)]

/-- C5 amended-claim witness at the counterexample SoundFont. -/
theorem buildZones_no_bounds_validation_witness :
    ((buildZones (fun _ => 1) [⟨"i", 0⟩, ⟨"", 1⟩] [⟨0, 0⟩, ⟨1, 0⟩]
        [⟨53, 0⟩] [⟨"s", 100, 50, 0, 0, 44100, 60, 0, 0, 0⟩]).headI ∈
      buildZones (fun _ => 1) [⟨"i", 0⟩, ⟨"", 1⟩] [⟨0, 0⟩, ⟨1, 0⟩]
        [⟨53, 0⟩] [⟨"s", 100, 50, 0, 0, 44100, 60, 0, 0, 0⟩]) ∧
    ((0 ≤ (buildZones (fun _ => 1) [⟨"i", 0⟩, ⟨"", 1⟩] [⟨0, 0⟩, ⟨1, 0⟩]
        [⟨53, 0⟩]
        [⟨"s", 100, 50, 0, 0, 44100, 60, 0, 0, 0⟩]).headI.sampleIndex ∧
      (buildZones (fun _ => 1) [⟨"i", 0⟩, ⟨"", 1⟩] [⟨0, 0⟩, ⟨1, 0⟩]
        [⟨53, 0⟩]
        [⟨"s", 100, 50, 0, 0, 44100, 60, 0, 0,
          0⟩]).headI.sampleIndex <
        ([⟨"s", 100, 50, 0, 0, 44100, 60, 0, 0, 0⟩] :
          List SampleHeader).length ∧
      (([⟨"s", 100, 50, 0, 0, 44100, 60, 0, 0, 0⟩] :
          List SampleHeader).getD
        (buildZones (fun _ => 1) [⟨"i", 0⟩, ⟨"", 1⟩] [⟨0, 0⟩, ⟨1, 0⟩]
          [⟨53, 0⟩] [⟨"s", 100, 50, 0, 0, 44100, 60, 0, 0,
            0⟩]).headI.sampleIndex.toNat dummySampleHeader).sampleType
        ≤ 1) ∧
    (∀ (d : List ℤ) (i : ℤ), (i < 0 ∨ (d.length : ℤ) ≤ i) →
      jsGetSample16 (some d) (.fin i) = .fin 0)) :=
  ⟨by decide,
    buildZones_no_bounds_validation (fun _ => 1) [⟨"i", 0⟩, ⟨"", 1⟩]
      [⟨0, 0⟩, ⟨1, 0⟩] [⟨53, 0⟩]
      [⟨"s", 100, 50, 0, 0, 44100, 60, 0, 0, 0⟩] _ (by decide)⟩

theorem renderLoop_length (c : RenderCtx) :
    ∀ (rem i : ℕ) (pos : JSNum), (renderLoop c i rem pos).length = rem := by
  intro rem
  induction rem with
  | zero => intro i pos; rfl
  | succ m ih =>
    intro i pos
    rw [renderLoop]
    by_cases h1 : c.hasLoop && jsGeB (jsAdd pos (.fin c.smpStart))
        (.fin c.loopStart)
    · simp only [if_pos h1, List.length_cons, ih]
    · simp only [if_neg h1]
      by_cases h2 : !c.hasLoop && jsGeB (jsAdd pos (.fin c.smpStart))
          (.fin c.smpEnd)
      · simp only [if_pos h2, List.length_replicate]
      · simp only [if_neg h2, List.length_cons, ih]

theorem jsIsFinite_exists (v : JSNum) (h : jsIsFinite v = true) :
    ∃ q : ℚ, v = .fin q := by
  cases v with
  | fin q => exact ⟨q, rfl⟩
  | inf => simp [jsIsFinite] at h
  | ninf => simp [jsIsFinite] at h
  | nan => simp [jsIsFinite] at h

theorem sanitize_finite (v : JSNum) :
    ∃ q : ℚ, (if jsIsFinite v then v else .fin 0) = .fin q := by
  by_cases h : jsIsFinite v
  · obtain ⟨q, hq⟩ := jsIsFinite_exists v h
    exact ⟨q, by rw [if_pos h, hq]⟩
  · exact ⟨0, by rw [if_neg h]⟩

theorem emitSample_finite (c : RenderCtx) (i : ℕ) (readPos : JSNum) :
    ∃ q : ℚ, emitSample c i readPos = .fin q := by
  unfold emitSample
  dsimp only
  exact sanitize_finite _

theorem renderLoop_finite (c : RenderCtx) :
    ∀ (rem i : ℕ) (pos : JSNum), ∀ v ∈ renderLoop c i rem pos,
      ∃ q : ℚ, v = .fin q := by
  intro rem
  induction rem with
  | zero => intro i pos v hv; simp [renderLoop] at hv
  | succ m ih =>
    intro i pos v hv
    rw [renderLoop] at hv
    by_cases h1 : c.hasLoop && jsGeB (jsAdd pos (.fin c.smpStart))
        (.fin c.loopStart)
    · rw [if_pos h1] at hv
      rcases List.mem_cons.mp hv with h | h
      · exact h ▸ emitSample_finite c i _
      · exact ih (i + 1) _ v h
    · rw [if_neg h1] at hv
      by_cases h2 : !c.hasLoop && jsGeB (jsAdd pos (.fin c.smpStart))
          (.fin c.smpEnd)
      · rw [if_pos h2] at hv
        rw [List.eq_of_mem_replicate hv]
        exact ⟨0, rfl⟩
      · rw [if_neg h2] at hv
        rcases List.mem_cons.mp hv with h | h
        · exact h ▸ emitSample_finite c i _
        · exact ih (i + 1) _ v h

/-- C10: for every sample pool (even `null`), zone (even with
out-of-bounds offsets), pitch ratio (even `Infinity`/`NaN`), velocity
and non-negative duration, `renderNote` returns exactly
`⌊44100 × duration⌋` samples, every one of them a finite number: the
guarded accessor turns out-of-range pool reads into 0, and the final
`Number.isFinite` check replaces any non-finite value with 0. -/
theorem renderNote_length_and_finite (sampleData : Option (List ℤ))
    (zone : SFZone) (pitchRatio : JSNum) (duration velocity : ℚ)
    (hdur : 0 ≤ duration) :
    (renderNote sampleData zone pitchRatio duration velocity).length =
      Nat.floor ((44100 : ℚ) * duration) ∧
    ∀ v ∈ renderNote sampleData zone pitchRatio duration velocity,
      ∃ q : ℚ, v = .fin q := by
  constructor
  · unfold renderNote
    exact renderLoop_length _ _ 0 (.fin 0)
  · intro v hv
    unfold renderNote at hv
    exact renderLoop_finite _ _ 0 (.fin 0) v hv

/-- C10 witness: a pathological concrete call — `null` pool, a zone
whose offsets are far out of bounds, a NaN pitch ratio — still returns
exactly 2 finite samples for `duration = 1/22050`. -/
theorem renderNote_length_and_finite_witness :
    ((0 : ℚ) ≤ 1 / 22050) ∧
    ((renderNote none ⟨0, 127, 0, 127, 0, 0, 60, 0, 100, 50, 0, 0, 44100,
        0, 1, 1, 1, 1⟩ .nan (1 / 22050) 100).length =
      Nat.floor ((44100 : ℚ) * (1 / 22050)) ∧
    ∀ v ∈ renderNote none ⟨0, 127, 0, 127, 0, 0, 60, 0, 100, 50, 0, 0,
        44100, 0, 1, 1, 1, 1⟩ .nan (1 / 22050) 100,
      ∃ q : ℚ, v = .fin q) :=
  ⟨by norm_num,
    renderNote_length_and_finite none
      ⟨0, 127, 0, 127, 0, 0, 60, 0, 100, 50, 0, 0, 44100, 0, 1, 1, 1, 1⟩
      .nan (1 / 22050) 100 (by norm_num)⟩
